import Mathlib

/-!
Verification of the notto hierarchical note store.

Shallow embedding conventions:
* Rust `String`/`str` values are modelled as their character lists (`Str := List Char`).
  Byte-level operations (`len`, slicing by byte index) act on ASCII data in every
  claim considered here, where byte positions and character positions coincide.
* Filesystem paths relative to the `Writer`/`Finder`/`NoteBrowser` base directory are
  modelled as lists of path segments (`FPath := List Str`); a segment is assumed to be
  a normal component (no embedded separator, not `.` or `..`), which holds for every
  input appearing in the theorems below.
* The filesystem is a pair of a file table (path to contents) and a set of existing
  directories; `std::fs` primitives are modelled as total functions returning
  `Except` plus the (possibly mutated) post state, since `std::fs` mutations persist
  even when a later step of a compound operation fails.
-/

namespace Notto

abbrev Str := List Char

/-- Convenience: a Lean string literal viewed as a Rust string (character list). -/
def strL (s : String) : Str := s.toList

/-- `str::split(sep)` on one separator character: yields all (possibly empty)
segments, e.g. splitting `"a//b"` gives `["a", "", "b"]` and splitting `""` gives
`[""]`. -/
def splitOnChar (sep : Char) : Str → List Str
  | [] => [[]]
  | c :: rest =>
    if c = sep then [] :: splitOnChar sep rest
    else
      match splitOnChar sep rest with
      | [] => [[c]]
      | s :: ss => (c :: s) :: ss

/-- Join segments with a separator character (inverse of `splitOnChar`). -/
def joinWith (sep : Char) : List Str → Str
  | [] => []
  | [s] => s
  | s :: ss => s ++ sep :: joinWith sep ss

theorem splitOnChar_ne_nil (sep : Char) (l : Str) : splitOnChar sep l ≠ [] := by
  cases l with
  | nil => simp [splitOnChar]
  | cons c rest =>
    simp only [splitOnChar]
    split
    · simp
    · split <;> simp

theorem joinWith_cons_cons (sep c : Char) (s : Str) (ss : List Str) :
    joinWith sep ((c :: s) :: ss) = c :: joinWith sep (s :: ss) := by
  cases ss <;> simp [joinWith]

theorem joinWith_splitOnChar (sep : Char) (l : Str) :
    joinWith sep (splitOnChar sep l) = l := by
  induction l with
  | nil => simp [splitOnChar, joinWith]
  | cons c rest ih =>
    simp only [splitOnChar]
    by_cases hc : c = sep
    · simp only [if_pos hc]
      obtain ⟨s, ss, hss⟩ : ∃ s ss, splitOnChar sep rest = s :: ss := by
        cases h : splitOnChar sep rest with
        | nil => exact absurd h (splitOnChar_ne_nil sep rest)
        | cons s ss => exact ⟨s, ss, rfl⟩
      rw [hss] at ih ⊢
      simp [joinWith, ih, hc]
    · simp only [if_neg hc]
      cases h : splitOnChar sep rest with
      | nil => exact absurd h (splitOnChar_ne_nil sep rest)
      | cons s ss =>
        rw [h] at ih
        rw [joinWith_cons_cons, ih]

/-! ## `NottoPath` (src/io/browser.rs)

The browser's logical path type: a single string with `/`-separated segments. -/

/-- `NottoPath { path: String }` from src/io/browser.rs. -/
structure NottoPath where
  path : Str
deriving DecidableEq, Repr

/-- `NottoPath::new`. -/
def NottoPath.new : NottoPath := ⟨[]⟩

/-- `NottoPath::push`: splits the argument on `/` and appends every resulting
segment (including empty ones), inserting a separator before each segment except
when the accumulated path is still empty. -/
def NottoPath.push (p : NottoPath) (s : Str) : NottoPath :=
  (splitOnChar '/' s).foldl
    (fun acc seg => ⟨acc.path ++ (if acc.path.isEmpty then seg else '/' :: seg)⟩) p

/-- `impl From<String> for NottoPath`: `NottoPath::new()` followed by one `push`. -/
def NottoPath.fromString (s : Str) : NottoPath := NottoPath.new.push s

/-- The segment sequence of a `NottoPath` (its string split on `/`). -/
def NottoPath.segments (p : NottoPath) : List Str := splitOnChar '/' p.path

theorem NottoPath.eq_iff_segments_eq (p q : NottoPath) :
    p = q ↔ p.segments = q.segments := by
  constructor
  · intro h; rw [h]
  · intro h
    have h2 : joinWith '/' p.segments = joinWith '/' q.segments := by rw [h]
    rw [NottoPath.segments, NottoPath.segments, joinWith_splitOnChar,
      joinWith_splitOnChar] at h2
    cases p; cases q
    simpa using h2

/-! ## `PathEntry` and the browser sort (src/io/browser.rs)

`PathEntry` derives `Ord` (field order: `name`, `path`, `is_dir`) and implements
`PartialOrd` by hand with a directories-first, numeric-aware comparison.
`Vec::sort` is a stable sort whose element comparisons go through
`PartialOrd::lt` (`stable_sort(v, T::lt)`, on older toolchains
`merge_sort(v, |a, b| a.lt(b))`); `lt`'s default body calls `partial_cmp`, so
the sort consults the hand-written comparator, not the derived `Ord::cmp`. -/

/-- Lexicographic comparison of character lists, modelling the `Ord` instance of
Rust's `String` (code-point order; identical to byte order on ASCII data). -/
def compareChars : Str → Str → Ordering
  | [], [] => .eq
  | [], _ :: _ => .lt
  | _ :: _, [] => .gt
  | a :: as, b :: bs =>
    if a < b then .lt else if b < a then .gt else compareChars as bs

/-- `false < true`, as in Rust's (and Lean's) `Ord` for `Bool`. -/
def compareBool : Bool → Bool → Ordering
  | false, true => .lt
  | true, false => .gt
  | _, _ => .eq

/-- `PathEntry { name, path, is_dir }` from src/io/browser.rs. -/
structure PathEntry where
  name : Str
  path : NottoPath
  is_dir : Bool
deriving DecidableEq, Repr

/-- The `#[derive(Ord)]` comparison on `PathEntry`: fields compared in declaration
order `name`, `path`, `is_dir`. It is inconsistent with the hand-written
`PartialOrd` below, but `Vec::sort` never consults it (sorting compares through
`PartialOrd::lt`). -/
def PathEntry.cmpDerived (a b : PathEntry) : Ordering :=
  (compareChars a.name b.name).then
    ((compareChars a.path.path b.path.path).then (compareBool a.is_dir b.is_dir))

/-- `i32::from_str`: optional sign, at least one ASCII digit, value within the
`i32` range. -/
def parseI32 (s : Str) : Option Int :=
  let (sign, ds) : Int × Str :=
    match s with
    | '+' :: r => (1, r)
    | '-' :: r => (-1, r)
    | r => (1, r)
  if ds.isEmpty then none
  else if ds.all Char.isDigit then
    let v : Int := sign * ds.foldl (fun a c => a * 10 + ((c.toNat : Int) - ('0'.toNat : Int))) 0
    if -(2 ^ 31) ≤ v ∧ v ≤ 2 ^ 31 - 1 then some v else none
  else none

/-- The hand-written `PartialOrd for PathEntry` (src/io/browser.rs lines 106-119):
directories first; among entries of the same kind, numeric comparison when both
names parse as `i32`, lexicographic otherwise. -/
def PathEntry.partialCmpManual (a b : PathEntry) : Option Ordering :=
  if a.is_dir = b.is_dir then
    match parseI32 a.name, parseI32 b.name with
    | some s, some o =>
      some (if s < o then Ordering.lt else if o < s then Ordering.gt
        else Ordering.eq)
    | _, _ => some (compareChars a.name b.name)
  else if a.is_dir then some .lt else some .gt

/-- `PartialOrd::lt` on `PathEntry`: the default body
`partial_cmp(self, other) == Some(Less)` dispatched to the hand-written
`partial_cmp`. This is the comparison `Vec::sort` calls. -/
def PathEntry.ltManual (a b : PathEntry) : Bool :=
  decide (PathEntry.partialCmpManual a b = some Ordering.lt)

/-- Insert into a sorted list, keeping earlier-inserted equal elements in place:
building block of a stable comparison sort. -/
def insertLe (le : PathEntry → PathEntry → Bool) (x : PathEntry) :
    List PathEntry → List PathEntry
  | [] => [x]
  | y :: ys => if le x y then x :: y :: ys else y :: insertLe le x ys

/-- A stable comparison sort over `PathEntry`. -/
def sortEntries (le : PathEntry → PathEntry → Bool) (l : List PathEntry) :
    List PathEntry :=
  l.foldr (insertLe le) []

/-- `result.sort()` in `NoteBrowser::get_selections_for_path`: a stable sort
whose comparisons are `PartialOrd::lt` calls, i.e. the hand-written
directories-first comparator — an element is placed before the first element it
is not strictly greater than (`x` goes before `y` when `¬ lt y x`). -/
def browserSort (l : List PathEntry) : List PathEntry :=
  sortEntries (fun a b => !PathEntry.ltManual b a) l

end Notto

namespace Notto

/-! ### Claims C8 and C9 -/

/-- Concrete listing rows for the browser-ordering scenario: files named `10`,
`2`, `apple` and a subdirectory `zzz`. -/
def entryZzz : PathEntry := ⟨strL "zzz", ⟨strL "zzz"⟩, true⟩

def entry10 : PathEntry := ⟨strL "10", ⟨strL "10"⟩, false⟩

def entry2 : PathEntry := ⟨strL "2", ⟨strL "2"⟩, false⟩

def entryApple : PathEntry := ⟨strL "apple", ⟨strL "apple"⟩, false⟩

/-- A three-way `if` computing `Ordering.lt` forces the strict inequality. -/
theorem ordOfInt_lt (s o : Int)
    (h : (if s < o then Ordering.lt else if o < s then Ordering.gt
      else Ordering.eq) = Ordering.lt) : s < o := by
  by_cases hso : s < o
  · exact hso
  · rw [if_neg hso] at h
    by_cases hos : o < s
    · rw [if_pos hos] at h
      exact absurd h (by decide)
    · rw [if_neg hos] at h
      exact absurd h (by decide)

/-- Lexicographic comparison is antisymmetric. -/
theorem compareChars_asymm : ∀ s t : Str,
    compareChars s t = .lt → compareChars t s = .gt := by
  intro s
  induction s with
  | nil =>
    intro t ht
    cases t with
    | nil => simp [compareChars] at ht
    | cons b bs => rfl
  | cons a as ih =>
    intro t ht
    cases t with
    | nil => simp [compareChars] at ht
    | cons b bs =>
      simp only [compareChars] at ht ⊢
      by_cases hab : a < b
      · rw [if_neg (lt_asymm hab), if_pos hab]
      · rw [if_neg hab] at ht
        by_cases hba : b < a
        · rw [if_pos hba] at ht
          exact absurd ht (by decide)
        · rw [if_neg hba] at ht
          rw [if_neg hba, if_neg hab]
          exact ih bs ht

/-- The hand-written comparator is asymmetric: a strict pair never reverses. -/
theorem ltManual_asymm (a b : PathEntry) (h : PathEntry.ltManual a b = true) :
    PathEntry.ltManual b a = false := by
  rw [PathEntry.ltManual, decide_eq_true_iff] at h
  rw [PathEntry.ltManual, decide_eq_false_iff_not]
  intro h2
  simp only [PathEntry.partialCmpManual] at h h2
  by_cases hd : a.is_dir = b.is_dir
  · rw [if_pos hd] at h
    rw [if_pos hd.symm] at h2
    cases hpa : parseI32 a.name with
    | some s =>
      cases hpb : parseI32 b.name with
      | some o =>
        rw [hpa, hpb] at h h2
        simp only [Option.some.injEq] at h h2
        have h1 := ordOfInt_lt s o h
        have h3 := ordOfInt_lt o s h2
        omega
      | none =>
        rw [hpa, hpb] at h h2
        simp only [Option.some.injEq] at h h2
        rw [compareChars_asymm _ _ h] at h2
        exact absurd h2 (by decide)
    | none =>
      cases hpb : parseI32 b.name with
      | some o =>
        rw [hpa, hpb] at h h2
        simp only [Option.some.injEq] at h h2
        rw [compareChars_asymm _ _ h] at h2
        exact absurd h2 (by decide)
      | none =>
        rw [hpa, hpb] at h h2
        simp only [Option.some.injEq] at h h2
        rw [compareChars_asymm _ _ h] at h2
        exact absurd h2 (by decide)
  · rw [if_neg hd] at h
    rw [if_neg (fun he => hd he.symm)] at h2
    by_cases had : a.is_dir = true
    · have hbd : ¬ b.is_dir = true := fun hbe => hd (by rw [had, hbe])
      rw [if_neg hbd] at h2
      exact absurd h2 (by decide)
    · rw [if_neg had] at h
      exact absurd h (by decide)

/-- A directory row is strictly below a file row under the hand-written
comparator. -/
theorem ltManual_dir_file (a b : PathEntry) (ha : a.is_dir = false)
    (hb : b.is_dir = true) : PathEntry.ltManual b a = true := by
  rw [PathEntry.ltManual, decide_eq_true_iff, PathEntry.partialCmpManual,
    if_neg (by rw [hb, ha]; simp), if_pos hb]

/-- Inserting into a list permutes consing onto it. -/
theorem insertLe_perm (le : PathEntry → PathEntry → Bool) (x : PathEntry) :
    ∀ l, (insertLe le x l).Perm (x :: l) := by
  intro l
  induction l with
  | nil => exact List.Perm.refl _
  | cons y ys ih =>
    rw [insertLe]
    by_cases h : le x y = true
    · rw [if_pos h]
    · rw [if_neg h]
      exact (ih.cons y).trans (List.Perm.swap x y ys)

/-- The insertion sort permutes its input. -/
theorem sortEntries_perm (le : PathEntry → PathEntry → Bool)
    (l : List PathEntry) : (sortEntries le l).Perm l := by
  induction l with
  | nil => exact List.Perm.refl _
  | cons x xs ih =>
    exact (insertLe_perm le x (sortEntries le xs)).trans (ih.cons x)

/-- Insertion preserves adjacent sortedness when the order is total. -/
theorem chain_insertLe (le : PathEntry → PathEntry → Bool)
    (htot : ∀ a b, le a b = false → le b a = true) (x : PathEntry) :
    ∀ l, List.Chain' (fun a b => le a b = true) l →
      List.Chain' (fun a b => le a b = true) (insertLe le x l) := by
  intro l
  induction l with
  | nil =>
    intro _
    simp [insertLe]
  | cons y ys ih =>
    intro hc
    rw [insertLe]
    by_cases h : le x y = true
    · rw [if_pos h]
      exact List.chain'_cons.mpr ⟨h, hc⟩
    · rw [if_neg h]
      have hyx : le y x = true := htot x y (by simpa using h)
      have hins := ih hc.tail
      cases ys with
      | nil =>
        rw [insertLe] at hins ⊢
        exact List.chain'_cons.mpr ⟨hyx, hins⟩
      | cons z zs =>
        rw [insertLe] at hins ⊢
        by_cases h2 : le x z = true
        · rw [if_pos h2] at hins ⊢
          exact List.chain'_cons.mpr ⟨hyx, hins⟩
        · rw [if_neg h2] at hins ⊢
          exact List.chain'_cons.mpr ⟨(List.chain'_cons.mp hc).1, hins⟩

/-- The insertion sort is adjacently sorted when the order is total. -/
theorem sortEntries_chain (le : PathEntry → PathEntry → Bool)
    (htot : ∀ a b, le a b = false → le b a = true) (l : List PathEntry) :
    List.Chain' (fun a b => le a b = true) (sortEntries le l) := by
  induction l with
  | nil => simp [sortEntries]
  | cons x xs ih => exact chain_insertLe le htot x (sortEntries le xs) ih

/-- Along an adjacently sorted listing, everything from a file row on is a file
row (a directory after it would compare strictly below its predecessor). -/
theorem chain_all_files : ∀ (as : List PathEntry) (a : PathEntry),
    List.Chain' (fun x y => PathEntry.ltManual y x = false) (a :: as) →
    a.is_dir = false → ∀ y ∈ a :: as, y.is_dir = false := by
  intro as
  induction as with
  | nil =>
    intro a _ ha y hy
    rw [List.mem_singleton] at hy
    subst hy
    exact ha
  | cons b bs ih =>
    intro a hc ha y hy
    have hab : PathEntry.ltManual b a = false := (List.chain'_cons.mp hc).1
    have hb : b.is_dir = false := by
      by_cases hbe : b.is_dir = true
      · rw [ltManual_dir_file a b ha hbe] at hab
        exact absurd hab (by decide)
      · simpa using hbe
    rcases List.mem_cons.mp hy with rfl | hy2
    · exact ha
    · exact ih b (List.chain'_cons.mp hc).2 hb y hy2

/-- An adjacently sorted listing splits into its directory rows followed by its
file rows. -/
theorem chain_partition : ∀ l : List PathEntry,
    List.Chain' (fun x y => PathEntry.ltManual y x = false) l →
    ∃ ds fs, l = ds ++ fs ∧ (∀ d ∈ ds, d.is_dir = true) ∧
      (∀ f ∈ fs, f.is_dir = false) := by
  intro l
  induction l with
  | nil => exact fun _ => ⟨[], [], rfl, by simp, by simp⟩
  | cons a as ih =>
    intro hc
    by_cases ha : a.is_dir = true
    · obtain ⟨ds, fs, heq, hds, hfs⟩ := ih hc.tail
      refine ⟨a :: ds, fs, by rw [List.cons_append, heq], ?_, hfs⟩
      intro d hd
      rcases List.mem_cons.mp hd with rfl | hd2
      · exact ha
      · exact hds d hd2
    · have ha2 : a.is_dir = false := by simpa using ha
      exact ⟨[], a :: as, rfl, by simp, chain_all_files as a hc ha2⟩

/-- C8: `result.sort()` in `get_selections_for_path` sorts through
`PartialOrd::lt`, the hand-written directories-first, numeric-aware comparator:
every sorted listing is a permutation of its rows in which no row is strictly
below its predecessor under that comparator, and all directory rows precede all
file rows. On the claim's example (files `10`, `2`, `apple` and a subdirectory
`zzz`) the listing is `zzz, 2, 10, apple` — `2` before `10` numerically even
though `2` follows `10` lexicographically. -/
theorem c8_sorted_directories_first :
    (∀ l : List PathEntry,
      (browserSort l).Perm l ∧
      List.Chain' (fun x y => PathEntry.ltManual y x = false) (browserSort l) ∧
      ∃ ds fs, browserSort l = ds ++ fs ∧ (∀ d ∈ ds, d.is_dir = true) ∧
        (∀ f ∈ fs, f.is_dir = false)) ∧
    browserSort [entryZzz, entry10, entry2, entryApple] =
      [entryZzz, entry2, entry10, entryApple] ∧
    PathEntry.partialCmpManual entry2 entry10 = some Ordering.lt ∧
    compareChars entry2.name entry10.name = Ordering.gt := by
  have htot : ∀ a b : PathEntry, (!PathEntry.ltManual b a) = false →
      (!PathEntry.ltManual a b) = true := by
    intro a b hab
    have h1 : PathEntry.ltManual b a = true := by simpa using hab
    rw [ltManual_asymm b a h1]
    rfl
  refine ⟨?_, by decide, by decide, by decide⟩
  intro l
  have hch0 := sortEntries_chain (fun a b => !PathEntry.ltManual b a) htot l
  have hch : List.Chain' (fun x y => PathEntry.ltManual y x = false)
      (browserSort l) :=
    hch0.imp (fun a b hab => by simp at hab; exact hab)
  exact ⟨sortEntries_perm _ l, hch, chain_partition _ hch⟩

/-- C9 counterexample: the `NottoPath` built from `"a//b"` differs from the one
built from `"a/b"`, and its segment sequence contains an empty segment — `push`
appends every split segment verbatim instead of rejecting or normalizing empty
ones. -/
theorem c9_counterexample_empty_segment_kept :
    NottoPath.fromString (strL "a//b") ≠ NottoPath.fromString (strL "a/b") ∧
    [] ∈ (NottoPath.fromString (strL "a//b")).segments := by
  refine ⟨by decide, by decide⟩

/-- C9 (amended): constructing a `NottoPath` from a raw string keeps every
segment produced by splitting on `/`, including empty segments from repeated
separators — so `"a//b"` yields segments `a`, ``, `b` and differs from the path
built from `"a/b"` — and two `NottoPath`s are equal iff their segment sequences
are equal. -/
theorem c9_amended_segments_kept_verbatim :
    (NottoPath.fromString (strL "a//b")).segments = [strL "a", [], strL "b"] ∧
    NottoPath.fromString (strL "a//b") ≠ NottoPath.fromString (strL "a/b") ∧
    ∀ p q : NottoPath, p = q ↔ p.segments = q.segments := by
  refine ⟨by decide, by decide, NottoPath.eq_iff_segments_eq⟩

end Notto

namespace Notto

/-! ## Notes and front matter (src/models/note.rs, src/models/front_matter.rs) -/

/-- Calendar date payload of the front matter (chrono::NaiveDate). -/
structure NaiveDate where
  year : Int
  month : Nat
  day : Nat
deriving DecidableEq, Repr

/-- Time-of-day payload of the front matter (chrono::NaiveTime). -/
structure NaiveTime where
  hour : Nat
  minute : Nat
  second : Nat
deriving DecidableEq, Repr

/-- `FrontMatter { id, title, date, time }` from src/models/front_matter.rs. -/
structure FrontMatter where
  id : Str
  title : Option Str
  date : NaiveDate
  time : NaiveTime
deriving DecidableEq, Repr

/-- `Note { front_matter, content }` from src/models/note.rs. -/
structure Note where
  front_matter : FrontMatter
  content : Str
deriving DecidableEq, Repr

/-- Strip one trailing carriage return, as `str::lines` does for `\r\n` endings. -/
def stripTrailingCr (l : Str) : Str :=
  if l.getLast? = some '\r' then l.dropLast else l

/-- `str::lines`: split on `\n`, drop the final empty piece produced by a trailing
newline, strip the `\r` of `\r\n` endings (a carriage return on a final line not
followed by a newline is kept). -/
def rustLines (s : Str) : List Str :=
  let parts := splitOnChar '\n' s
  match parts.getLast? with
  | some last =>
    let init := (parts.dropLast).map stripTrailingCr
    if last = [] then init else init ++ [last]
  | none => []

/-- `str::trim`: remove whitespace from both ends. -/
def trimStr (l : Str) : Str :=
  ((l.dropWhile Char.isWhitespace).reverse.dropWhile Char.isWhitespace).reverse

/-- The `---` front-matter delimiter. -/
def dashes : Str := strL "---"

/-- The body of the `lines.enumerate().for_each(..)` loop in `Note::from_text`,
acting on state `(front_matter, content, in_front_matter)`: every line is first
pushed onto `content`; a `---` line at a later position while inside the front
matter closes it and clears `content`; lines inside the front matter are also
collected into `front_matter`; a `---` first line opens the front matter. -/
def ftGo : Nat → List Str → List Str × List Str × Bool → List Str × List Str × Bool
  | _, [], st => st
  | pos, line :: rest, (fm, content, ifm) =>
    let content := content ++ [line]
    let (fm, content, ifm) :=
      if pos ≠ 0 ∧ trimStr line = dashes ∧ ifm = true then (fm, ([] : List Str), false)
      else (fm, content, ifm)
    let fm := if ifm then fm ++ [line] else fm
    let ifm := if pos = 0 ∧ trimStr line = dashes then true else ifm
    ftGo (pos + 1) rest (fm, content, ifm)

/-- `Vec::join("\n")`. -/
def joinNl (ls : List Str) : Str := joinWith '\n' ls

/-- `Note::from_text`. The external collaborators are passed as functions:
`yamlParse` models `serde_yaml::from_str::<FrontMatter>` (`none` = `Err`),
`extractTitle` models the pulldown-cmark based `extract_title`, and `defaultFm`
models `FrontMatter::default()` (fresh uuid, current date/time, `title: None`).
After the line loop, an unclosed front matter is discarded (`front_matter.clear()`),
the content lines are rejoined with `\n`, the collected front-matter text is
parsed (falling back to the default on error), and a missing title is filled in
from the content. -/
def fromText (yamlParse : Str → Option FrontMatter) (extractTitle : Str → Str)
    (defaultFm : FrontMatter) (text : Str) : Note :=
  let st := ftGo 0 (rustLines text) ([], [], false)
  let fmLines := if st.2.2 = true then [] else st.1
  let cont := joinNl st.2.1
  let fmP :=
    match yamlParse (joinNl fmLines) with
    | some f => f
    | none => defaultFm
  let fmP :=
    if fmP.title = none then { fmP with title := some (extractTitle cont) } else fmP
  ⟨fmP, cont⟩

theorem ftGo_unclosed (rest : List Str) :
    ∀ pos fm content, pos ≠ 0 → (∀ l ∈ rest, trimStr l ≠ dashes) →
      ftGo pos rest (fm, content, true) = (fm ++ rest, content ++ rest, true) := by
  induction rest with
  | nil => intro pos fm content _ _; simp [ftGo]
  | cons l rest ih =>
    intro pos fm content hpos hrest
    have hl : trimStr l ≠ dashes := hrest l (by simp)
    have hrest' : ∀ x ∈ rest, trimStr x ≠ dashes := fun x hx => hrest x (by simp [hx])
    simp only [ftGo, hl, hpos, if_neg, and_false, false_and, and_true, if_true,
      if_false, ite_false, ite_true, not_true, not_false_iff]
    rw [ih (pos + 1) (fm ++ [l]) (content ++ [l]) (by omega) hrest']
    simp

/-- C10: for an input text whose first line trims to `---` and which contains no
later line trimming to `---`, `Note::from_text` leaves the front matter open to
the end, discards the collected front-matter lines unparsed (the parser only ever
sees the empty string, which fails to parse), and returns a note whose content is
the whole input with lines rejoined by `\n` (including the opening `---` line) and
whose metadata is the default front matter with the title extracted from that
content. -/
theorem c10_unclosed_front_matter_falls_back
    (yp : Str → Option FrontMatter) (et : Str → Str) (dfm : FrontMatter)
    (text l0 : Str) (rest : List Str)
    (hyp : yp [] = none) (hdfm : dfm.title = none)
    (hlines : rustLines text = l0 :: rest) (h0 : trimStr l0 = dashes)
    (hrest : ∀ l ∈ rest, trimStr l ≠ dashes) :
    fromText yp et dfm text =
      ⟨{ dfm with title := some (et (joinNl (l0 :: rest))) },
        joinNl (l0 :: rest)⟩ := by
  have hstep : ftGo 0 (rustLines text) ([], [], false) = (rest, l0 :: rest, true) := by
    rw [hlines]
    simp only [ftGo, h0]
    rw [if_neg (by simp), if_neg (by simp), if_pos (by simp [h0])]
    have h := ftGo_unclosed rest 1 [] [l0] (by omega) hrest
    simpa using h
  simp only [fromText, hstep, joinNl, joinWith, hyp, hdfm]
  simp [hdfm]

/-- Default front matter used to instantiate the C10 witness. -/
def fmW : FrontMatter := ⟨[], none, ⟨0, 1, 1⟩, ⟨0, 0, 0⟩⟩

/-- Witness for C10 at a concrete unclosed-front-matter input. -/
theorem c10_witness :
    fromText (fun _ => none) (fun _ => strL "t") fmW (strL "---\ntitle: x\nbody") =
      ⟨{ fmW with title := some (strL "t") }, strL "---\ntitle: x\nbody"⟩ := by
  have h := c10_unclosed_front_matter_falls_back (fun _ => none) (fun _ => strL "t")
    fmW (strL "---\ntitle: x\nbody") (strL "---") [strL "title: x", strL "body"]
    rfl rfl (by decide) (by decide) (by decide)
  exact h

end Notto

namespace Notto

/-! ## Finder (src/finder/mod.rs) -/

/-- `TimeFind` from src/finder/mod.rs. -/
inductive TimeFind
  | Before
  | After
  | At
deriving DecidableEq, Repr

/-- `FindCondition` from src/finder/mod.rs. -/
inductive FindCondition
  | Text (s : Str)
  | Tag (s : Str)
  | Date (w : TimeFind) (d : NaiveDate)
  | Time (w : TimeFind) (t : NaiveTime)
deriving DecidableEq, Repr

/-- `str::to_uppercase`, modelled character-wise (exact on ASCII data, where no
character expands when uppercased). -/
def toUpperStr (s : Str) : Str := s.map Char.toUpper

/-- The `check_conds` closure in `Finder::find`: iterates the conditions,
returning `false` at the first unmatched one; a `Text` condition holds iff the
uppercased query occurs inside the uppercased content
(`content.to_uppercase().find(&text.to_uppercase()).is_some()`); the `Tag`,
`Date` and `Time` arms evaluate to `false`. -/
def checkConds (conds : List FindCondition) (note : Note) : Bool :=
  match conds with
  | [] => true
  | cond :: rest =>
    let matched :=
      match cond with
      | .Text text => decide (toUpperStr text <:+: toUpperStr note.content)
      | .Tag _ => false
      | .Date _ _ => false
      | .Time _ _ => false
    if !matched then false else checkConds rest note

/-- What the claim means by a note satisfying one condition: for `Text s`, the
content contains `s` as a substring case-insensitively (some stretch of the
content equals `s` up to letter case, whatever case either side uses); the other
condition kinds are unimplemented and match nothing. -/
def CondSatisfied (note : Note) : FindCondition → Prop
  | .Text t => ∃ pre mid post, note.content = pre ++ mid ++ post ∧
      toUpperStr mid = toUpperStr t
  | .Tag _ => False
  | .Date _ _ => False
  | .Time _ _ => False

theorem map_eq_append_decomp {α β : Type} (f : α → β) (l : List α) (s t : List β)
    (h : l.map f = s ++ t) :
    ∃ l1 l2, l = l1 ++ l2 ∧ l1.map f = s ∧ l2.map f = t := by
  refine ⟨l.take s.length, l.drop s.length, (l.take_append_drop s.length).symm, ?_, ?_⟩
  · rw [List.map_take, h, List.take_left]
  · rw [List.map_drop, h, List.drop_left]

theorem upper_infix_iff (t content : Str) :
    toUpperStr t <:+: toUpperStr content ↔
      ∃ pre mid post, content = pre ++ mid ++ post ∧ toUpperStr mid = toUpperStr t := by
  constructor
  · rintro ⟨s, u, hsu⟩
    have h1 : content.map Char.toUpper = s ++ (toUpperStr t ++ u) := by
      rw [← List.append_assoc]; exact hsu.symm
    obtain ⟨pre, rest, hc, hpre, hrest⟩ := map_eq_append_decomp Char.toUpper content _ _ h1
    obtain ⟨mid, post, hr, hmid, hpost⟩ := map_eq_append_decomp Char.toUpper rest _ _ hrest
    exact ⟨pre, mid, post, by rw [hc, hr, List.append_assoc], hmid⟩
  · rintro ⟨pre, mid, post, hc, hmid⟩
    refine ⟨toUpperStr pre, toUpperStr post, ?_⟩
    rw [← hmid]
    simp only [toUpperStr, hc, List.map_append]

/-- C6: a note passes `check_conds` iff it satisfies every condition in the list
(logical AND — in particular the empty list matches every note), and a `Text s`
condition is satisfied exactly when the content contains `s` as a substring
case-insensitively, regardless of the case used on either side. -/
theorem c6_match_semantics (conds : List FindCondition) (note : Note) :
    checkConds conds note = true ↔ ∀ c ∈ conds, CondSatisfied note c := by
  induction conds with
  | nil => simp [checkConds]
  | cons cond rest ih =>
    cases cond with
    | Text t =>
      simp only [checkConds, List.mem_cons]
      by_cases h : toUpperStr t <:+: toUpperStr note.content
      · rw [if_neg (by simp [h])]
        rw [ih]
        constructor
        · intro hall c hc
          rcases hc with hc | hc
          · subst hc; exact (upper_infix_iff t note.content).mp h
          · exact hall c hc
        · intro hall c hc; exact hall c (Or.inr hc)
      · rw [if_pos (by simp [h])]
        constructor
        · intro hfalse; exact absurd hfalse (by simp)
        · intro hall
          exfalso
          exact h ((upper_infix_iff t note.content).mpr (hall (.Text t) (Or.inl rfl)))
    | Tag s =>
      simp only [checkConds, CondSatisfied]
      constructor
      · intro hfalse; exact absurd hfalse (by simp)
      · intro hall; exact absurd (hall (.Tag s) (by simp)) (by simp [CondSatisfied])
    | Date w d =>
      simp only [checkConds, CondSatisfied]
      constructor
      · intro hfalse; exact absurd hfalse (by simp)
      · intro hall; exact absurd (hall (.Date w d) (by simp)) (by simp [CondSatisfied])
    | Time w tm =>
      simp only [checkConds, CondSatisfied]
      constructor
      · intro hfalse; exact absurd hfalse (by simp)
      · intro hall; exact absurd (hall (.Time w tm) (by simp)) (by simp [CondSatisfied])

end Notto

namespace Notto

/-! ## Finder execution model (src/finder/mod.rs, `find` / `read_dir`)

`find` builds an unbounded channel, recursively walks the directory tree
synchronously, spawns one worker per leaf file, waits on the `WaitGroup` until
every worker has dropped its handle (also on panic unwind), and only then sends
the terminal `Finish`. The channel is modelled as the list of messages sent so
far (an unbounded FIFO delivers in send order); worker interleaving is modelled
by a step relation that lets any still-pending leaf worker complete next, and the
`WaitGroup` wait by enabling the `Finish` send only once no worker is pending. -/

/-- A leaf file encountered by the walk: its path and its contents, `none` when
reading the file fails. -/
structure Leaf where
  path : List Str
  content : Option Str
deriving DecidableEq, Repr

/-- A directory tree under the searched root. -/
inductive Tree
  | file (name : Str) (content : Option Str)
  | dir (name : Str) (children : List Tree)
deriving Repr

mutual

/-- The leaf files discovered by `Finder::read_dir`, in traversal order:
subdirectories are recursed into synchronously, files are dispatched as workers. -/
def Tree.leavesAt : List Str → Tree → List Leaf
  | path, .file n c => [⟨path ++ [n], c⟩]
  | path, .dir n cs => Tree.leavesListAt (path ++ [n]) cs

/-- Leaves of a list of sibling entries, in order. -/
def Tree.leavesListAt : List Str → List Tree → List Leaf
  | _, [] => []
  | path, t :: ts => Tree.leavesAt path t ++ Tree.leavesListAt path ts

end

/-- `NoteFindMessage` from src/finder/mod.rs (the `Result` payload is the parsed
note plus the path). -/
inductive FindMessage
  | result (note : Note) (path : List Str)
  | finish
deriving DecidableEq, Repr

/-- Outcome of one spawned leaf worker: what it logged via `error!`, the messages
it sent, and whether it panicked. -/
structure LeafRun where
  log : List Str
  msgs : List FindMessage
  panicked : Bool
deriving DecidableEq, Repr

/-- The closure spawned per leaf in `Finder::read_dir`:
`fs::read_to_string(&p).unwrap()` panics the worker thread when the read fails —
nothing is logged and no message is sent (the `WaitGroup` clone is still dropped
during unwinding, so the search is not blocked). On success the text is parsed
into a note and a `Result` is sent iff the conditions all match. -/
def leafRun (yp : Str → Option FrontMatter) (et : Str → Str) (dfm : FrontMatter)
    (conds : List FindCondition) (l : Leaf) : LeafRun :=
  match l.content with
  | none => ⟨[], [], true⟩
  | some text =>
    let note := fromText yp et dfm text
    if checkConds conds note then ⟨[], [.result note l.path], false⟩
    else ⟨[], [], false⟩

/-- Messages a leaf worker sends. -/
def leafMsgs (yp : Str → Option FrontMatter) (et : Str → Str) (dfm : FrontMatter)
    (conds : List FindCondition) (l : Leaf) : List FindMessage :=
  (leafRun yp et dfm conds l).msgs

/-- Whether a leaf is readable and its parsed note satisfies all conditions. -/
def leafMatches (yp : Str → Option FrontMatter) (et : Str → Str) (dfm : FrontMatter)
    (conds : List FindCondition) (l : Leaf) : Bool :=
  match l.content with
  | none => false
  | some text => checkConds conds (fromText yp et dfm text)

/-- State of one `find` invocation: workers not yet finished, the channel
contents in delivery order, and whether `Finish` has been sent. -/
structure FindState where
  pending : List Leaf
  chan : List FindMessage
  finished : Bool

/-- Initial state: every discovered leaf has a dispatched worker, empty channel. -/
def initState (leaves : List Leaf) : FindState := ⟨leaves, [], false⟩

/-- Interleaving semantics of one `find` invocation: any pending worker may
complete next, appending its messages to the channel; once no worker is pending
(the `WaitGroup` wait returns) and `Finish` has not been sent yet, `find` sends
the single terminal `Finish`. -/
inductive FindStep (P : Leaf → List FindMessage) : FindState → FindState → Prop
  | run (s : FindState) (pre post : List Leaf) (x : Leaf)
      (h : s.pending = pre ++ x :: post) :
      FindStep P s ⟨pre ++ post, s.chan ++ P x, s.finished⟩
  | finish (s : FindState) (hp : s.pending = []) (hf : s.finished = false) :
      FindStep P s ⟨[], s.chan ++ [.finish], true⟩

/-- Reachability under `FindStep`. -/
def FindReach (P : Leaf → List FindMessage) : FindState → FindState → Prop :=
  Relation.ReflTransGen (FindStep P)

/-- Recognizes `Result` messages. -/
def isResult : FindMessage → Bool
  | .result _ _ => true
  | .finish => false

/-- Recognizes the `Finish` message. -/
def isFinish : FindMessage → Bool
  | .finish => true
  | .result _ _ => false

/-- Number of `Result` messages on the channel. -/
def resCount (msgs : List FindMessage) : Nat := msgs.countP isResult

/-- Number of `Finish` messages on the channel. -/
def finCount (msgs : List FindMessage) : Nat := msgs.countP isFinish

theorem finCount_eq_zero (msgs : List FindMessage)
    (h : FindMessage.finish ∉ msgs) : finCount msgs = 0 := by
  rw [finCount, List.countP_eq_zero]
  intro m hm
  cases m with
  | result n p => simp [isFinish]
  | finish => exact absurd hm h


/-- The search invariant: before `Finish` is sent the channel holds no `Finish`
and the `Result` messages on it plus those of the still-pending workers account
for all matches (`total`); after `Finish` is sent nothing is pending, all matching
results are on the channel, and the single `Finish` is the last message. -/
def FindInv (P : Leaf → List FindMessage) (total : Nat) (s : FindState) : Prop :=
  (s.finished = false → finCount s.chan = 0 ∧
    resCount s.chan + resCount (s.pending.flatMap P) = total) ∧
  (s.finished = true → s.pending = [] ∧ finCount s.chan = 1 ∧
    resCount s.chan = total ∧ s.chan.getLast? = some FindMessage.finish)

theorem find_step_inv (P : Leaf → List FindMessage)
    (hP : ∀ l, FindMessage.finish ∉ P l) (total : Nat) (s s' : FindState)
    (hstep : FindStep P s s') (hinv : FindInv P total s) : FindInv P total s' := by
  cases hstep with
  | run pre post x hpend =>
    cases hfin : s.finished with
    | false =>
      obtain ⟨hfc, hrc⟩ := hinv.1 hfin
      constructor
      · intro _
        refine ⟨?_, ?_⟩
        · have h0 : List.countP isFinish (P x) = 0 := finCount_eq_zero (P x) (hP x)
          simp only [finCount, List.countP_append] at *
          omega
        · rw [hpend, List.flatMap_append, List.flatMap_cons] at hrc
          simp only [resCount, List.countP_append, List.flatMap_append] at *
          omega
      · intro hf
        exact absurd hf (by simp)
    | true =>
      have hnil := (hinv.2 hfin).1
      rw [hnil] at hpend
      exact absurd hpend (by simp)
  | finish hp hf =>
    obtain ⟨hfc, hrc⟩ := hinv.1 hf
    constructor
    · intro hcontra
      exact absurd hcontra (by simp)
    · intro _
      refine ⟨rfl, ?_, ?_, List.getLast?_concat _⟩
      · have h1 : List.countP isFinish [FindMessage.finish] = 1 := by decide
        simp only [finCount, List.countP_append] at *
        omega
      · rw [hp] at hrc
        simp only [List.flatMap_nil, resCount, List.countP_nil] at hrc
        have h0 : List.countP isResult [FindMessage.finish] = 0 := by decide
        simp only [resCount, List.countP_append] at *
        omega

theorem find_reach_inv (P : Leaf → List FindMessage)
    (hP : ∀ l, FindMessage.finish ∉ P l) (leaves : List Leaf) (s : FindState)
    (h : FindReach P (initState leaves) s) :
    FindInv P (resCount (leaves.flatMap P)) s := by
  induction h with
  | refl =>
    constructor
    · intro _
      simp [initState, finCount, resCount]
    · intro hf
      simp [initState] at hf
  | tail hreach hstep ih => exact find_step_inv P hP _ _ _ hstep ih

theorem resCount_leafMsgs (yp : Str → Option FrontMatter) (et : Str → Str)
    (dfm : FrontMatter) (conds : List FindCondition) (l : Leaf) :
    List.countP isResult (leafMsgs yp et dfm conds l) =
      if leafMatches yp et dfm conds l then 1 else 0 := by
  cases hc : l.content with
  | none => simp [leafMsgs, leafRun, leafMatches, hc]
  | some text =>
    by_cases hm : checkConds conds (fromText yp et dfm text) = true
    · simp [leafMsgs, leafRun, leafMatches, hc, hm, isResult]
    · simp only [Bool.not_eq_true] at hm
      simp [leafMsgs, leafRun, leafMatches, hc, hm]

theorem resCount_flatMap_leafMsgs (yp : Str → Option FrontMatter) (et : Str → Str)
    (dfm : FrontMatter) (conds : List FindCondition) (leaves : List Leaf) :
    resCount (leaves.flatMap (leafMsgs yp et dfm conds)) =
      leaves.countP (leafMatches yp et dfm conds) := by
  induction leaves with
  | nil => simp [resCount]
  | cons l rest ih =>
    simp only [List.flatMap_cons, resCount, List.countP_append, List.countP_cons] at *
    rw [ih, resCount_leafMsgs]
    omega

theorem finish_not_mem_leafMsgs (yp : Str → Option FrontMatter) (et : Str → Str)
    (dfm : FrontMatter) (conds : List FindCondition) (l : Leaf) :
    FindMessage.finish ∉ leafMsgs yp et dfm conds l := by
  cases hc : l.content with
  | none => simp [leafMsgs, leafRun, hc]
  | some text =>
    by_cases hm : checkConds conds (fromText yp et dfm text) = true
    · simp [leafMsgs, leafRun, hc, hm]
    · simp only [Bool.not_eq_true] at hm
      simp [leafMsgs, leafRun, hc, hm]

end Notto

namespace Notto

/-- C5: for a directory tree whose leaf files are all readable, any completed
execution of a single `find` invocation has delivered exactly as many `Result`
messages as there are leaves satisfying the condition set, exactly one `Finish`
message, and the `Finish` message is the last message delivered on the channel —
no `Result` of the invocation follows it. -/
theorem c5_finder_completeness_and_sentinel
    (yp : Str → Option FrontMatter) (et : Str → Str) (dfm : FrontMatter)
    (conds : List FindCondition) (trees : List Tree) (s : FindState)
    (hreach : FindReach (leafMsgs yp et dfm conds)
      (initState (Tree.leavesListAt [] trees)) s)
    (hdone : s.finished = true)
    (hread : ∀ l ∈ Tree.leavesListAt [] trees, l.content ≠ none) :
    resCount s.chan =
      (Tree.leavesListAt [] trees).countP (leafMatches yp et dfm conds) ∧
    finCount s.chan = 1 ∧ s.chan.getLast? = some FindMessage.finish := by
  have hinv := find_reach_inv _ (finish_not_mem_leafMsgs yp et dfm conds) _ s hreach
  obtain ⟨hnil, hfc, hrc, hlast⟩ := hinv.2 hdone
  exact ⟨by rw [hrc, resCount_flatMap_leafMsgs], hfc, hlast⟩

/-- Concrete inputs for the C5 witness. -/
def ypW : Str → Option FrontMatter := fun _ => none

def etW : Str → Str := fun _ => strL "t"

def fmW2 : FrontMatter := ⟨strL "id0", none, ⟨2021, 1, 1⟩, ⟨0, 0, 0⟩⟩

def condsW : List FindCondition := [.Text (strL "hell")]

def treesW : List Tree :=
  [.file (strL "a.md") (some (strL "Hello")),
   .dir (strL "d") [.file (strL "b.md") (some (strL "xyz"))]]

def leafA : Leaf := ⟨[strL "a.md"], some (strL "Hello")⟩

def leafB : Leaf := ⟨[strL "d", strL "b.md"], some (strL "xyz")⟩

def noteW : Note := fromText ypW etW fmW2 (strL "Hello")

def sW5 : FindState :=
  ⟨[], [FindMessage.result noteW [strL "a.md"], FindMessage.finish], true⟩

/-- Witness for C5: a two-leaf tree, one matching leaf, and a complete concrete
execution reaching the terminal state. -/
theorem c5_witness :
    resCount sW5.chan =
      (Tree.leavesListAt [] treesW).countP (leafMatches ypW etW fmW2 condsW) ∧
    finCount sW5.chan = 1 ∧ sW5.chan.getLast? = some FindMessage.finish := by
  apply c5_finder_completeness_and_sentinel ypW etW fmW2 condsW treesW sW5 ?_ rfl ?_
  · have h1 : FindStep (leafMsgs ypW etW fmW2 condsW)
        (initState (Tree.leavesListAt [] treesW))
        ⟨[leafB], [FindMessage.result noteW [strL "a.md"]], false⟩ := by
      have h := FindStep.run (P := leafMsgs ypW etW fmW2 condsW)
        (initState (Tree.leavesListAt [] treesW)) [] [leafB] leafA (by decide)
      exact h
    have h2 : FindStep (leafMsgs ypW etW fmW2 condsW)
        ⟨[leafB], [FindMessage.result noteW [strL "a.md"]], false⟩
        ⟨[], [FindMessage.result noteW [strL "a.md"]], false⟩ := by
      have h := FindStep.run (P := leafMsgs ypW etW fmW2 condsW)
        ⟨[leafB], [FindMessage.result noteW [strL "a.md"]], false⟩ [] [] leafB rfl
      exact h
    have h3 : FindStep (leafMsgs ypW etW fmW2 condsW)
        ⟨[], [FindMessage.result noteW [strL "a.md"]], false⟩ sW5 := by
      have h := FindStep.finish (P := leafMsgs ypW etW fmW2 condsW)
        ⟨[], [FindMessage.result noteW [strL "a.md"]], false⟩ rfl rfl
      exact h
    exact Relation.ReflTransGen.tail
      (Relation.ReflTransGen.tail (Relation.ReflTransGen.single h1) h2) h3
  · decide

/-- Front matter constant for the C7 scenario. -/
def fmW3 : FrontMatter := ⟨strL "id1", none, ⟨2022, 2, 2⟩, ⟨1, 2, 3⟩⟩

/-- C7 counterexample: the claim says a failed leaf read "is logged and the leaf
is skipped". In the code the worker calls `fs::read_to_string(&p).unwrap()`, so
on a read failure the worker thread panics: nothing is written to the error log
(`log` is empty) and the worker aborts by panic rather than by a logged skip. -/
theorem c7_counterexample_panic_not_logged :
    (leafRun (fun _ => none) (fun _ => strL "t") fmW3 [] ⟨[strL "u.md"], none⟩).log
        = [] ∧
    (leafRun (fun _ => none) (fun _ => strL "t") fmW3 [] ⟨[strL "u.md"], none⟩).panicked
        = true :=
  ⟨rfl, rfl⟩

/-- C7 (amended): when reading an individual leaf fails, the spawned worker
panics via `unwrap` — nothing is written to the log and no message is sent — but
the panic is confined to that worker (its `WaitGroup` handle is dropped during
unwinding), so the overall search is not aborted: every completed execution still
delivers the `Result` messages of every readable matching leaf, followed by the
single terminal `Finish` as the last message on the channel. -/
theorem c7_amended_read_failure_panics_worker
    (yp : Str → Option FrontMatter) (et : Str → Str) (dfm : FrontMatter)
    (conds : List FindCondition) (trees : List Tree) :
    (∀ pathL : List Str, leafRun yp et dfm conds ⟨pathL, none⟩ = ⟨[], [], true⟩) ∧
    (∀ s : FindState,
      FindReach (leafMsgs yp et dfm conds) (initState (Tree.leavesListAt [] trees)) s →
      s.finished = true →
      resCount s.chan =
        (Tree.leavesListAt [] trees).countP (leafMatches yp et dfm conds) ∧
      finCount s.chan = 1 ∧ s.chan.getLast? = some FindMessage.finish) := by
  constructor
  · intro _
    rfl
  · intro s hreach hdone
    have hinv := find_reach_inv _ (finish_not_mem_leafMsgs yp et dfm conds) _ s hreach
    obtain ⟨hnil, hfc, hrc, hlast⟩ := hinv.2 hdone
    exact ⟨by rw [hrc, resCount_flatMap_leafMsgs], hfc, hlast⟩

/-- Concrete inputs for the C7 witness: one unreadable leaf, one matching leaf. -/
def condsW7 : List FindCondition := [.Text (strL "HELL")]

def treesW7 : List Tree :=
  [.file (strL "bad.md") none, .file (strL "c.md") (some (strL "hello"))]

def leafBad : Leaf := ⟨[strL "bad.md"], none⟩

def leafC : Leaf := ⟨[strL "c.md"], some (strL "hello")⟩

def noteW7 : Note := fromText ypW etW fmW3 (strL "hello")

def sW7 : FindState :=
  ⟨[], [FindMessage.result noteW7 [strL "c.md"], FindMessage.finish], true⟩

/-- Witness for C7 at a concrete tree containing an unreadable leaf: the
unreadable worker panics with empty log, and a complete concrete execution still
delivers the readable match and the final `Finish`. -/
theorem c7_witness :
    leafRun ypW etW fmW3 condsW7 ⟨[strL "zz.md"], none⟩ = ⟨[], [], true⟩ ∧
    (resCount sW7.chan =
      (Tree.leavesListAt [] treesW7).countP (leafMatches ypW etW fmW3 condsW7) ∧
    finCount sW7.chan = 1 ∧ sW7.chan.getLast? = some FindMessage.finish) := by
  have h := c7_amended_read_failure_panics_worker ypW etW fmW3 condsW7 treesW7
  refine ⟨h.1 [strL "zz.md"], h.2 sW7 ?_ rfl⟩
  have h1 : FindStep (leafMsgs ypW etW fmW3 condsW7)
      (initState (Tree.leavesListAt [] treesW7)) ⟨[leafC], [], false⟩ := by
    have hs := FindStep.run (P := leafMsgs ypW etW fmW3 condsW7)
      (initState (Tree.leavesListAt [] treesW7)) [] [leafC] leafBad (by decide)
    exact hs
  have h2 : FindStep (leafMsgs ypW etW fmW3 condsW7) ⟨[leafC], [], false⟩
      ⟨[], [FindMessage.result noteW7 [strL "c.md"]], false⟩ := by
    have hs := FindStep.run (P := leafMsgs ypW etW fmW3 condsW7)
      ⟨[leafC], [], false⟩ [] [] leafC rfl
    exact hs
  have h3 : FindStep (leafMsgs ypW etW fmW3 condsW7)
      ⟨[], [FindMessage.result noteW7 [strL "c.md"]], false⟩ sW7 := by
    have hs := FindStep.finish (P := leafMsgs ypW etW fmW3 condsW7)
      ⟨[], [FindMessage.result noteW7 [strL "c.md"]], false⟩ rfl rfl
    exact hs
  exact Relation.ReflTransGen.tail
    (Relation.ReflTransGen.tail (Relation.ReflTransGen.single h1) h2) h3

end Notto

namespace Notto

/-! ## Storage engine (src/writer/mod.rs)

State under the writer's base directory: a file table (path to contents) and the
set of existing directories. All paths are relative to the base directory and the
root `[]` always exists as a directory. The operations below guarantee that a
file's parent is always a registered directory, so `Path::exists` coincides with
being a registered file or directory. -/

abbrev FPath := List Str

/-- `NoteFileType` from src/writer/mod.rs. -/
inductive NoteFileType
  | File (name : Str)
  | Directory (name : Str)
deriving DecidableEq, Repr

/-- The filesystem under the base directory. -/
structure Fs where
  files : List (FPath × Str)
  dirs : List FPath
deriving DecidableEq, Repr

/-- Contents of the file at a path, if one exists. -/
def lookupF : List (FPath × Str) → FPath → Option Str
  | [], _ => none
  | (q, c) :: rest, p => if q = p then some c else lookupF rest p

/-- `Path::is_file` (relative to the base directory). -/
def Fs.isFile (fs : Fs) (p : FPath) : Bool := (lookupF fs.files p).isSome

/-- `Path::is_dir` (relative to the base directory; the base itself is `[]`). -/
def Fs.isDir (fs : Fs) (p : FPath) : Bool := decide (p ∈ fs.dirs)

/-- `Path::exists` (relative to the base directory). -/
def Fs.pathExists (fs : Fs) (p : FPath) : Bool := fs.isFile p || fs.isDir p

/-- `NottoError` variants reachable from the writer, plus the fuel sentinel of
the bounded model of the unbounded promotion recursion. -/
inductive WErr
  | noteExists (note_name : Str)
  | fileError (message : Str)
  | ioError (message : Str)
  | outOfFuel
deriving DecidableEq, Repr

/-- The nonempty prefixes of a path, shortest first. -/
def prefixesOf : FPath → List FPath
  | [] => []
  | s :: rest => [s] :: (prefixesOf rest).map (s :: ·)

/-- `fs::create_dir_all`: creates the directory and all missing ancestors; fails
when some prefix already exists as a regular file. -/
def mkdirAll (fs : Fs) (p : FPath) : Except WErr Unit × Fs :=
  if (prefixesOf p).any (fun q => fs.isFile q) then
    (.error (.ioError (strL "create_dir_all: component is a file")), fs)
  else (.ok (), { fs with dirs := prefixesOf p ++ fs.dirs })

/-- `fs::rename`, restricted to regular files — the only case the writer
exercises: `convert_note_to_parent_note` checks `is_file` before its first
rename, and its second rename moves the file produced by the first. Renaming
over an existing file replaces it; the source must exist and the target's parent
directory must exist. -/
def renameFile (fs : Fs) (src dst : FPath) : Except WErr Unit × Fs :=
  match lookupF fs.files src with
  | none => (.error (.ioError (strL "rename: no such file")), fs)
  | some c =>
    if fs.isDir dst then (.error (.ioError (strL "rename: target is a directory")), fs)
    else if dst = [] then (.error (.ioError (strL "rename: empty target")), fs)
    else if !fs.isDir dst.dropLast then
      (.error (.ioError (strL "rename: target parent missing")), fs)
    else
      (.ok (),
        { fs with
          files := (dst, c) ::
            fs.files.filter (fun e => decide (e.1 ≠ src) && decide (e.1 ≠ dst)) })

/-- `Writer::get_note_file` followed by `file.write`: `OpenOptions` with
`write(true).create(true)` and no `truncate`, then a write at position 0. The
open fails if the parent directory is missing or the path is a directory; a
fresh file holds exactly the text; an existing longer file keeps its old tail
beyond the newly written bytes. -/
def writeFile (fs : Fs) (p : FPath) (text : Str) : Except WErr Unit × Fs :=
  if p = [] then (.error (.ioError (strL "open: empty path")), fs)
  else if fs.isDir p then (.error (.ioError (strL "open: is a directory")), fs)
  else if !fs.isDir p.dropLast then
    (.error (.ioError (strL "open: parent directory missing")), fs)
  else
    match lookupF fs.files p with
    | none => (.ok (), { fs with files := (p, text) :: fs.files })
    | some old =>
      (.ok (),
        { fs with
          files := (p, text ++ old.drop text.length) ::
            fs.files.filter (fun e => decide (e.1 ≠ p)) })

/-- Helper of the `Path::file_stem` model: split a name at its last dot. -/
def fileStemAux : Str → Option (Str × Str)
  | [] => none
  | c :: rest =>
    match fileStemAux rest with
    | some (a, b) => some (c :: a, b)
    | none => if c = '.' then some ([], rest) else none

/-- `Path::file_stem` on one normal file-name segment: the portion before the
last dot, except that a name whose only dot is leading is its own stem. -/
def fileStem (s : Str) : Str :=
  match fileStemAux s with
  | none => s
  | some ([], _) => s
  | some (a, _) => a

/-- `".{}".format(FILE_NAME_EXTENSION)` with extension `md`. -/
def mdExt : Str := strL ".md"

/-- `index.md` (`DIR_ROOT_NOTE_NAME`). -/
def indexMd : Str := strL "index.md"

/-- `str::ends_with(".md")`. -/
def endsWithMd (s : Str) : Bool := decide (mdExt <:+ s)

/-- `file_name[..file_name.len() - ".md".len()]`. -/
def stripMd (s : Str) : Str := s.take (s.length - 3)

/-- `PathBuf::set_extension("md")` on the last component. -/
def setExtMdSeg (s : Str) : Str := fileStem s ++ mdExt

/-- `possible_file.set_extension(FILE_NAME_EXTENSION)` on a whole path. -/
def setExtMdPath (p : FPath) : FPath :=
  match p.getLast? with
  | none => p
  | some s => p.dropLast ++ [setExtMdSeg s]

/-- Names of the entries directly inside `parent`. -/
def siblingNames (fs : Fs) (parent : FPath) : List Str :=
  (fs.files.map Prod.fst ++ fs.dirs).filterMap
    (fun q => if q.dropLast = parent then q.getLast? else none)

/-- Modelled from the code's `Uuid::new_v4().to_simple()` temporary file name: a
v4 uuid is random and collision-free; the model picks a deterministic name
provably distinct from every name in `used` (one more `x` than the longest). -/
def freshSeg (used : List Str) : Str :=
  List.replicate (1 + used.foldr (fun s m => max s.length m) 0) 'x'

/-- `Writer::note_file_exists` (the probe): strip a trailing `.md` to get the
file and directory candidate names; report `File` if `parent/name.md` exists and
is a regular file, else `Directory` if `parent/name` exists (checked twice, as in
the source) and `parent/name/index.md` exists, else nothing. -/
def noteFileExists (fs : Fs) (path : FPath) (file_name : Str) : Option NoteFileType :=
  let pair : Str × Str :=
    if endsWithMd file_name then (file_name, stripMd file_name)
    else (file_name ++ mdExt, file_name)
  let note_file_name := pair.1
  let note_dir_name := pair.2
  let fp := path ++ [note_file_name]
  if fs.pathExists fp && fs.isFile fp then some (.File note_file_name)
  else
    let dp := path ++ [note_dir_name]
    if fs.pathExists dp && fs.pathExists dp then
      let ip := dp ++ [indexMd]
      if fs.pathExists ip && fs.pathExists ip then some (.Directory note_dir_name)
      else none
    else none

end Notto

namespace Notto

/-! ### Promotion and promotion-aware directory creation

`convert_note_to_parent_note` and `create_dir_all` are mutually recursive in the
source (promotion re-enters directory creation for its destination directory).
The walk (`cdaGoP`, `createDirIfP`) is parameterized by the promotion procedure
to call on a prefix, and `convertNote` consumes one unit of `fuel` per nesting
level of the promotion chain; the Rust recursion is unbounded, and every result
below holds for any sufficiently large fuel. -/

/-- `Writer::create_dir_if_doesnt_exist`, with the promotion procedure `conv`
passed in: an existing file prefix is promoted; an existing directory is kept; a
missing prefix whose `.md` sibling exists triggers promotion of that file;
otherwise the directory is created. -/
def createDirIfP (conv : Fs → FPath → Except WErr Unit × Fs) (fs : Fs)
    (p : FPath) : Except WErr Unit × Fs :=
  if fs.pathExists p then
    if fs.isFile p then conv fs p
    else (.ok (), fs)
  else
    let possible_file := setExtMdPath p
    if fs.pathExists possible_file then conv fs possible_file
    else mkdirAll fs p

/-- The component loop of `Writer::create_dir_all`: walk the path one normal
component at a time, accumulating the prefix and applying promotion-aware
creation to each. -/
def cdaGoP (conv : Fs → FPath → Except WErr Unit × Fs) :
    Fs → FPath → List Str → Except WErr Unit × Fs
  | fs, _, [] => (.ok (), fs)
  | fs, acc, seg :: rest =>
    match createDirIfP conv fs (acc ++ [seg]) with
    | (.error e, fs1) => (.error e, fs1)
    | (.ok _, fs1) => cdaGoP conv fs1 (acc ++ [seg]) rest

/-- `Writer::convert_note_to_parent_note` (promotion): check the source exists
and is a regular file; rename it to a fresh temporary sibling; create the
destination directory (promotion-aware, one fuel level down); rename the
temporary into `destination/index.md`. -/
def convertNote : Nat → Fs → FPath → Except WErr Unit × Fs
  | 0, fs, _ => (.error .outOfFuel, fs)
  | fuel + 1, fs, note_path =>
    if !fs.pathExists note_path then
      (.error (.fileError (strL "expected note not found")), fs)
    else if !fs.isFile note_path then
      (.error (.fileError (strL "expected file")), fs)
    else
      match note_path.getLast? with
      | none => (.error (.fileError (strL "no file in path")), fs)
      | some last =>
        let dir_name := fileStem last
        let dest_directory := note_path.dropLast ++ [dir_name]
        let temp_name := freshSeg (dir_name :: siblingNames fs note_path.dropLast)
        let temp_path := note_path.dropLast ++ [temp_name]
        match renameFile fs note_path temp_path with
        | (.error e, fs1) => (.error e, fs1)
        | (.ok _, fs1) =>
          match cdaGoP (convertNote fuel) fs1 [] dest_directory with
          | (.error e, fs2) => (.error e, fs2)
          | (.ok _, fs2) => renameFile fs2 temp_path (dest_directory ++ [indexMd])

/-- `Writer::create_dir_all` at a given promotion depth budget. -/
def createDirAllW (fuel : Nat) (fs : Fs) (p : FPath) : Except WErr Unit × Fs :=
  cdaGoP (convertNote fuel) fs [] p

/-- `Writer::save_note_at`. The writer consumes the note only through
`note.to_text()` (serialization is an external collaborator), so the serialized
text is passed directly. Steps: ensure the parent path exists (promotion-aware),
strip a `.md` suffix from the requested name, probe for an existing note,
refuse to overwrite without permission, compute the destination (existing file,
existing directory root note, or fresh `name.md`), then open and write. -/
def saveNoteAt (fuel : Nat) (fs : Fs) (note_text : Str) (path : FPath)
    (file_name : Str) (overwrite : Bool) : Except WErr FPath × Fs :=
  let step1 : Except WErr Unit × Fs :=
    if !fs.pathExists path then createDirAllW fuel fs path else (.ok (), fs)
  match step1 with
  | (.error e, fs1) => (.error e, fs1)
  | (.ok _, fs1) =>
    let file_name := if endsWithMd file_name then stripMd file_name else file_name
    match noteFileExists fs1 path file_name with
    | some nft =>
      if !overwrite then (.error (.noteExists file_name), fs1)
      else
        let save_path :=
          match nft with
          | .File note_file_name => path ++ [note_file_name]
          | .Directory directory_name => path ++ [directory_name, indexMd]
        match writeFile fs1 save_path note_text with
        | (.error e, fs2) => (.error e, fs2)
        | (.ok _, fs2) => (.ok save_path, fs2)
    | none =>
      let save_path := path ++ [file_name ++ mdExt]
      match writeFile fs1 save_path note_text with
      | (.error e, fs2) => (.error e, fs2)
      | (.ok _, fs2) => (.ok save_path, fs2)

/-- The empty base directory. -/
def fs0 : Fs := ⟨[], [[]]⟩

/-- One `save_note_at` call in a history of saves. -/
structure SaveOp where
  text : Str
  parent : FPath
  name : Str
  overwrite : Bool
  fuel : Nat

/-- The stripped note name under which a save is addressed. -/
def stripName (s : Str) : Str := if endsWithMd s then stripMd s else s

/-- Apply one save to the state, recording the logical path `parent/name` of a
successful save. -/
def applyOp (st : Fs × List FPath) (op : SaveOp) : Fs × List FPath :=
  match saveNoteAt op.fuel st.1 op.text op.parent op.name op.overwrite with
  | (.ok _, fs') => (fs', st.2 ++ [op.parent ++ [stripName op.name]])
  | (.error _, fs') => (fs', st.2)

/-- Run a sequence of `save_note_at` calls from an empty base directory,
recording the logical path of every successful save. -/
def runOps (ops : List SaveOp) : Fs × List FPath := ops.foldl applyOp (fs0, [])

end Notto

namespace Notto

/-! ### Claims C2, C3, C4 and the C1 counterexample -/

/-- Filesystem after the C2 scenario: directory `alpha` holding the promoted
first note in `index.md` and the second note in `beta.md`. -/
def fsC2 (X Y : Str) : Fs :=
  ⟨[([strL "alpha", strL "beta.md"], Y), ([strL "alpha", strL "index.md"], X)],
    [[strL "alpha"], []]⟩

/-- C2: from an empty base directory, saving a note with serialized content `X`
at the root under name `alpha` and then a note with serialized content `Y` under
parent path `alpha` with name `beta` promotes the first note: afterwards
`alpha/index.md` holds `X`, `alpha/beta.md` holds `Y`, and
`note_file_exists(root, "alpha")` returns `Directory("alpha")`. -/
theorem c2_promotion_preserves_content (X Y : Str) :
    runOps [⟨X, [], strL "alpha", false, 8⟩, ⟨Y, [strL "alpha"], strL "beta", false, 8⟩] =
      (fsC2 X Y, [[strL "alpha"], [strL "alpha", strL "beta"]]) ∧
    lookupF (fsC2 X Y).files [strL "alpha", strL "index.md"] = some X ∧
    lookupF (fsC2 X Y).files [strL "alpha", strL "beta.md"] = some Y ∧
    noteFileExists (fsC2 X Y) [] (strL "alpha") =
      some (NoteFileType.Directory (strL "alpha")) := by
  refine ⟨?_, rfl, rfl, rfl⟩
  have h1 : applyOp (fs0, []) ⟨X, [], strL "alpha", false, 8⟩ =
      (⟨[([strL "alpha.md"], X)], [[]]⟩, [[strL "alpha"]]) := rfl
  have h2 : applyOp (⟨[([strL "alpha.md"], X)], [[]]⟩, [[strL "alpha"]])
      ⟨Y, [strL "alpha"], strL "beta", false, 8⟩ =
      (fsC2 X Y, [[strL "alpha"], [strL "alpha", strL "beta"]]) := rfl
  simp only [runOps, List.foldl_cons, List.foldl_nil]
  rw [h1]
  exact h2

/-- Filesystem after the first C4 save: `n.md` holds eight bytes. -/
def fsC4a : Fs := ⟨[([strL "n.md"], strL "AAAAAAAA")], [[]]⟩

/-- Filesystem after the C4 overwrite: the two new bytes overwrote the head of
the old contents, but the stale tail `AAAAAA` remains. -/
def fsC4b : Fs := ⟨[([strL "n.md"], strL "BBAAAAAA")], [[]]⟩

/-- C4: `Writer::get_note_file` opens with `write(true).create(true)` and no
`truncate(true)`, so overwriting an existing note whose previous serialization
was longer leaves the tail of the old contents in place: after overwriting the
eight-byte note with the two-byte serialization `BB`, the file holds `BBAAAAAA`,
not `BB` — contradicting the claim (and spec §4.1 step 3, "truncating
otherwise"). The saved file is the snippet the claim calls `note.to_text()`. -/
theorem c4_overwrite_leaves_stale_tail :
    saveNoteAt 8 fs0 (strL "AAAAAAAA") [] (strL "n") false = (.ok [strL "n.md"], fsC4a) ∧
    saveNoteAt 8 fsC4a (strL "BB") [] (strL "n") true = (.ok [strL "n.md"], fsC4b) ∧
    lookupF fsC4b.files [strL "n.md"] = some (strL "BBAAAAAA") ∧
    strL "BBAAAAAA" ≠ strL "BB" :=
  ⟨rfl, rfl, rfl, by decide⟩

/-- A base directory holding the single root note `alpha.md` (the result of one
save of serialized content `X`). -/
def fsC3a : Fs := ⟨[([strL "alpha.md"], strL "X")], [[]]⟩

/-- The tree after the failing C3 call: `alpha.md` was promoted into
`alpha/index.md` before the no-overwrite guard fired. -/
def fsC3b : Fs := ⟨[([strL "alpha", strL "index.md"], strL "X")], [[strL "alpha"], []]⟩

/-- C1/C3 shared scenario; C3 counterexample: with `alpha` existing only as the
file `alpha.md`, calling `save_note_at` for parent path `alpha`, name `index`,
`overwrite = false` returns the `NoteExists("index")` error — the probe inside
the call found an existing note — yet the tree is not byte-identical: the
promotion-aware directory creation ran before the guard and promoted `alpha.md`
into `alpha/` with `alpha/index.md`. -/
theorem c3_counterexample_guard_mutates_tree :
    saveNoteAt 8 fs0 (strL "X") [] (strL "alpha") false = (.ok [strL "alpha.md"], fsC3a) ∧
    saveNoteAt 8 fsC3a (strL "Y") [strL "alpha"] (strL "index") false =
      (.error (.noteExists (strL "index")), fsC3b) ∧
    fsC3b ≠ fsC3a :=
  ⟨rfl, rfl, by decide⟩

/-- C3 (amended): when the parent path already exists beforehand, the
no-overwrite guard is mutation-free: if the probe finds an existing note at
`parent/name` and `overwrite = false`, the call returns `NoteExists` naming the
stripped note name and the filesystem is returned unchanged. (When the parent
path does not yet exist, the promotion-aware directory creation runs before the
guard and may mutate the tree, as the counterexample shows.) -/
theorem c3_amended_guard_pure_when_parent_exists
    (fuel : Nat) (fs : Fs) (text : Str) (path : FPath) (name : Str)
    (hex : fs.pathExists path = true)
    (hsome : (noteFileExists fs path (stripName name)).isSome = true) :
    saveNoteAt fuel fs text path name false =
      (.error (.noteExists (stripName name)), fs) := by
  obtain ⟨t, ht⟩ := Option.isSome_iff_exists.mp hsome
  simp only [stripName] at ht ⊢
  unfold saveNoteAt
  rw [if_neg (by simp [hex])]
  simp [ht]

/-- Witness for the amended C3 at a concrete state: parent `alpha` exists as a
directory and `alpha/index.md` is an existing note. -/
theorem c3_amended_witness :
    saveNoteAt 8 fsC3b (strL "Y") [strL "alpha"] (strL "index") false =
      (.error (.noteExists (strL "index")), fsC3b) :=
  c3_amended_guard_pure_when_parent_exists 8 fsC3b (strL "Y") [strL "alpha"]
    (strL "index") (by decide) (by decide)

/-- The save history of the C1 counterexample: save `alpha`, save `alpha/beta`
(promoting `alpha`), then save a note under parent path `alpha/index`. -/
def opsCE : List SaveOp :=
  [⟨strL "X", [], strL "alpha", false, 8⟩,
   ⟨strL "Y", [strL "alpha"], strL "beta", false, 8⟩,
   ⟨strL "Z", [strL "alpha", strL "index"], strL "gamma", false, 8⟩]

/-- Final tree of the C1 counterexample: the third save promoted the directory
root note `alpha/index.md` into `alpha/index/index.md`, so logical path `alpha`
no longer probes as anything. -/
def fsCE : Fs :=
  ⟨[([strL "alpha", strL "index", strL "gamma.md"], strL "Z"),
    ([strL "alpha", strL "index", strL "index.md"], strL "X"),
    ([strL "alpha", strL "beta.md"], strL "Y")],
    [[strL "alpha"], [strL "alpha", strL "index"], [strL "alpha"], []]⟩

/-- C1 counterexample: all three saves succeed, so a note was saved at logical
path `alpha` (and later promoted by saving a descendant), yet afterwards probing
`alpha` with `note_file_exists` returns `none`: the third save's promotion-aware
directory creation saw segment `index`, found `alpha/index.md` — the directory
root note holding `alpha`'s content — and promoted it away into
`alpha/index/index.md`, leaving neither `alpha.md` nor `alpha/index.md`. -/
theorem c1_counterexample_probe_none_after_saves :
    (runOps opsCE).2 =
      [[strL "alpha"], [strL "alpha", strL "beta"],
        [strL "alpha", strL "index", strL "gamma"]] ∧
    [strL "alpha"] ∈ (runOps opsCE).2 ∧
    noteFileExists (runOps opsCE).1 [] (strL "alpha") = none := by
  have h1 : applyOp (fs0, []) ⟨strL "X", [], strL "alpha", false, 8⟩ =
      (⟨[([strL "alpha.md"], strL "X")], [[]]⟩, [[strL "alpha"]]) := rfl
  have h2 : applyOp (⟨[([strL "alpha.md"], strL "X")], [[]]⟩, [[strL "alpha"]])
      ⟨strL "Y", [strL "alpha"], strL "beta", false, 8⟩ =
      (fsC2 (strL "X") (strL "Y"), [[strL "alpha"], [strL "alpha", strL "beta"]]) := rfl
  have h3 : applyOp (fsC2 (strL "X") (strL "Y"), [[strL "alpha"], [strL "alpha", strL "beta"]])
      ⟨strL "Z", [strL "alpha", strL "index"], strL "gamma", false, 8⟩ =
      (fsCE, [[strL "alpha"], [strL "alpha", strL "beta"],
        [strL "alpha", strL "index", strL "gamma"]]) := rfl
  have hrun : runOps opsCE =
      (fsCE, [[strL "alpha"], [strL "alpha", strL "beta"],
        [strL "alpha", strL "index", strL "gamma"]]) := by
    simp only [runOps, opsCE, List.foldl_cons, List.foldl_nil]
    rw [h1, h2]
    exact h3
  rw [hrun]
  exact ⟨rfl, by decide, rfl⟩

end Notto

namespace Notto

/-! ### The one-identity invariant for clean save histories (claim C1)

A save history is *clean* when every parent-path segment and note name is a
simple name: nonempty, containing neither `.` nor `/`, and distinct from the
reserved stem `index` (names are given without the `.md` suffix, which
`save_note_at` strips anyway). The C1 counterexample above shows the probe
invariant fails once a parent path uses the reserved stem. -/

/-- A simple path segment. -/
def CleanSeg (s : Str) : Prop :=
  s ≠ [] ∧ '.' ∉ s ∧ '/' ∉ s ∧ s ≠ strL "index"

/-- A note-file stem: like `CleanSeg` but the reserved stem is allowed (this is
the shape of the stem of every file the writer creates — `name.md` or
`index.md`). -/
def SemiClean (s : Str) : Prop := s ≠ [] ∧ '.' ∉ s ∧ '/' ∉ s

/-- A save call with simple parent segments and name, and enough fuel for the
(at most one level deep) promotion chains a clean history triggers. -/
def CleanOp (op : SaveOp) : Prop :=
  (∀ s ∈ op.parent, CleanSeg s) ∧ CleanSeg op.name ∧ 1 ≤ op.fuel

/-- State invariant of clean save histories, relating the tree to the logical
paths saved so far. -/
structure Inv (saved : List FPath) (fs : Fs) : Prop where
  root_dir : [] ∈ fs.dirs
  dirs_clean : ∀ d ∈ fs.dirs, ∀ s ∈ d, CleanSeg s
  dirs_closed : ∀ d ∈ fs.dirs, d ≠ [] → d.dropLast ∈ fs.dirs
  files_shape : ∀ e ∈ fs.files, ∃ D n, e.1 = D ++ [n ++ mdExt] ∧ D ∈ fs.dirs ∧ SemiClean n
  not_both : ∀ D n, ¬(fs.isFile (D ++ [n ++ mdExt]) = true ∧
      fs.isFile ((D ++ [n]) ++ [indexMd]) = true)
  saved_ok : ∀ P ∈ saved, ∃ D n, P = D ++ [n] ∧ CleanSeg n ∧ (∀ s ∈ D, CleanSeg s) ∧
      (fs.isFile (D ++ [n ++ mdExt]) = true ∨ fs.isFile (P ++ [indexMd]) = true)

theorem indexMd_eq : indexMd = strL "index" ++ mdExt := by decide

theorem dot_mem_mdExt : '.' ∈ mdExt := by decide

theorem concat_last_eq {α : Type} (l1 l2 : List α) (a b : α)
    (h : l1 ++ [a] = l2 ++ [b]) : a = b ∧ l1 = l2 := by
  have h1 : (l1 ++ [a]).getLast? = (l2 ++ [b]).getLast? := by rw [h]
  rw [List.getLast?_concat, List.getLast?_concat] at h1
  have h2 : a = b := by injection h1
  subst h2
  exact ⟨rfl, by simpa using h⟩

theorem not_endsWithMd (s : Str) (h : '.' ∉ s) : endsWithMd s = false := by
  rw [endsWithMd, decide_eq_false_iff_not]
  rintro ⟨t, ht⟩
  exact h (ht ▸ List.mem_append_right t dot_mem_mdExt)

theorem stripName_no_dot (s : Str) (h : '.' ∉ s) : stripName s = s := by
  rw [stripName, not_endsWithMd s h]
  simp

theorem fileStemAux_no_dot (s : Str) (h : '.' ∉ s) : fileStemAux s = none := by
  induction s with
  | nil => rfl
  | cons c rest ih =>
    rw [fileStemAux, ih (fun hc => h (List.mem_cons_of_mem c hc))]
    simp only [List.mem_cons, not_or] at h
    have hc : ¬c = '.' := fun hc => h.1 hc.symm
    simp [hc]

theorem fileStem_no_dot (s : Str) (h : '.' ∉ s) : fileStem s = s := by
  rw [fileStem, fileStemAux_no_dot s h]

theorem fileStemAux_append_md (n : Str) (h : '.' ∉ n) :
    fileStemAux (n ++ mdExt) = some (n, strL "md") := by
  induction n with
  | nil => rfl
  | cons c rest ih =>
    simp only [List.mem_cons, not_or] at h
    rw [List.cons_append, fileStemAux, ih h.2]

theorem fileStem_append_md (n : Str) (h : '.' ∉ n) (hne : n ≠ []) :
    fileStem (n ++ mdExt) = n := by
  rw [fileStem, fileStemAux_append_md n h]
  cases n with
  | nil => exact absurd rfl hne
  | cons c rest => rfl

theorem mem_prefixesOf_iff (p q : FPath) :
    q ∈ prefixesOf p ↔ q ≠ [] ∧ q <+: p := by
  induction p generalizing q with
  | nil =>
    simp only [prefixesOf, List.not_mem_nil, false_iff, not_and]
    intro hne hpre
    exact hne (List.prefix_nil.mp hpre)
  | cons s rest ih =>
    simp only [prefixesOf, List.mem_cons, List.mem_map]
    constructor
    · rintro (rfl | ⟨q', hq', rfl⟩)
      · exact ⟨by simp, ⟨rest, rfl⟩⟩
      · obtain ⟨hne, hpre⟩ := (ih q').mp hq'
        exact ⟨by simp, List.prefix_cons_inj s |>.mpr hpre⟩
    · rintro ⟨hne, hpre⟩
      cases q with
      | nil => exact absurd rfl hne
      | cons a q' =>
        obtain ⟨t, ht⟩ := hpre
        have ha : a = s := by injection ht with h1 _
        subst ha
        cases q' with
        | nil => exact Or.inl rfl
        | cons b q'' =>
          refine Or.inr ⟨b :: q'', (ih _).mpr ⟨by simp, ?_⟩, rfl⟩
        
          refine ⟨t, ?_⟩
          injection ht

theorem self_mem_prefixesOf (p : FPath) (h : p ≠ []) : p ∈ prefixesOf p :=
  (mem_prefixesOf_iff p p).mpr ⟨h, List.prefix_refl p⟩

theorem length_le_foldr_max (used : List Str) (s : Str) (h : s ∈ used) :
    s.length ≤ used.foldr (fun t m => max t.length m) 0 := by
  induction used with
  | nil => simp at h
  | cons t rest ih =>
    rcases List.mem_cons.mp h with rfl | h'
    · simp [List.foldr]
    · exact le_trans (ih h') (by simp [List.foldr])

theorem freshSeg_not_mem (used : List Str) (s : Str) (h : s ∈ used) :
    freshSeg used ≠ s := by
  intro heq
  have h1 : (freshSeg used).length = 1 + used.foldr (fun t m => max t.length m) 0 := by
    simp [freshSeg]
  have h2 := length_le_foldr_max used s h
  rw [heq] at h1
  omega

end Notto

namespace Notto

theorem lookupF_mem (l : List (FPath × Str)) (q : FPath) (c : Str)
    (h : lookupF l q = some c) : (q, c) ∈ l := by
  induction l with
  | nil => simp [lookupF] at h
  | cons e rest ih =>
    obtain ⟨k, v⟩ := e
    rw [lookupF] at h
    by_cases hk : k = q
    · subst hk
      simp only [if_pos rfl] at h
      injection h with h
      subst h
      exact List.mem_cons_self _ _
    · rw [if_neg hk] at h
      exact List.mem_cons_of_mem _ (ih h)

theorem lookupF_isSome_iff (l : List (FPath × Str)) (q : FPath) :
    (lookupF l q).isSome = true ↔ ∃ c, lookupF l q = some c := by
  cases h : lookupF l q <;> simp [h]

theorem lookupF_eq_none_of_forall (l : List (FPath × Str)) (q : FPath)
    (h : ∀ e ∈ l, e.1 ≠ q) : lookupF l q = none := by
  induction l with
  | nil => rfl
  | cons e rest ih =>
    obtain ⟨k, v⟩ := e
    rw [lookupF, if_neg (h (k, v) (List.mem_cons_self _ _)), ih]
    intro e he
    exact h e (List.mem_cons_of_mem _ he)

theorem lookupF_filter2_eq (l : List (FPath × Str)) (a b q : FPath)
    (hqa : q ≠ a) (hqb : q ≠ b) :
    lookupF (l.filter fun e => decide (e.1 ≠ a) && decide (e.1 ≠ b)) q =
      lookupF l q := by
  induction l with
  | nil => rfl
  | cons e rest ih =>
    obtain ⟨k, v⟩ := e
    by_cases hk : k = q
    · subst hk
      rw [List.filter_cons, if_pos (by simp [hqa, hqb]), lookupF, if_pos rfl,
        lookupF, if_pos rfl]
    · rw [List.filter_cons]
      by_cases hkeep : (decide (k ≠ a) && decide (k ≠ b)) = true
      · rw [if_pos hkeep, lookupF, if_neg hk, lookupF, if_neg hk, ih]
      · rw [if_neg hkeep, lookupF, if_neg hk, ih]

theorem lookupF_filter2_none (l : List (FPath × Str)) (a b q : FPath)
    (h : q = a ∨ q = b) :
    lookupF (l.filter fun e => decide (e.1 ≠ a) && decide (e.1 ≠ b)) q = none := by
  apply lookupF_eq_none_of_forall
  intro e he
  have := (List.mem_filter.mp he).2
  simp only [Bool.and_eq_true, decide_eq_true_eq] at this
  rcases h with rfl | rfl
  · exact this.1
  · exact this.2

theorem lookupF_filter1_eq (l : List (FPath × Str)) (a q : FPath) (hqa : q ≠ a) :
    lookupF (l.filter fun e => decide (e.1 ≠ a)) q = lookupF l q := by
  induction l with
  | nil => rfl
  | cons e rest ih =>
    obtain ⟨k, v⟩ := e
    by_cases hk : k = q
    · subst hk
      rw [List.filter_cons, if_pos (by simp [hqa]), lookupF, if_pos rfl,
        lookupF, if_pos rfl]
    · rw [List.filter_cons]
      by_cases hkeep : (decide (k ≠ a)) = true
      · rw [if_pos (by simp [hkeep]), lookupF, if_neg hk, lookupF, if_neg hk, ih]
      · rw [if_neg (by simp at hkeep ⊢; exact hkeep), lookupF, if_neg hk, ih]

theorem lookupF_filter1_none (l : List (FPath × Str)) (a : FPath) :
    lookupF (l.filter fun e => decide (e.1 ≠ a)) a = none := by
  apply lookupF_eq_none_of_forall
  intro e he
  have := (List.mem_filter.mp he).2
  simpa using this

/-- `pathExists` unfolded to a disjunction. -/
theorem pathExists_iff (fs : Fs) (p : FPath) :
    fs.pathExists p = true ↔ fs.isFile p = true ∨ p ∈ fs.dirs := by
  simp [Fs.pathExists, Fs.isDir, Bool.or_eq_true, decide_eq_true_iff]

theorem pathExists_false_iff (fs : Fs) (p : FPath) :
    fs.pathExists p = false ↔ fs.isFile p = false ∧ p ∉ fs.dirs := by
  rw [← Bool.not_eq_true, pathExists_iff]
  simp [not_or, Bool.not_eq_true]

/-- Under the invariant, every registered file path ends in a dotted segment. -/
theorem isFile_shape {saved : List FPath} {fs : Fs} (hinv : Inv saved fs)
    {p : FPath} (h : fs.isFile p = true) :
    ∃ D n, p = D ++ [n ++ mdExt] ∧ D ∈ fs.dirs ∧ SemiClean n := by
  rw [Fs.isFile, lookupF_isSome_iff] at h
  obtain ⟨c, hc⟩ := h
  exact hinv.files_shape (p, c) (lookupF_mem _ _ _ hc)

/-- Under the invariant, a path whose last segment has no dot is not a file. -/
theorem not_isFile_clean_last {saved : List FPath} {fs : Fs} (hinv : Inv saved fs)
    {D : FPath} {n : Str} (hn : '.' ∉ n) : fs.isFile (D ++ [n]) = false := by
  by_contra h
  rw [Bool.not_eq_false] at h
  obtain ⟨D', n', hshape, _, _⟩ := isFile_shape hinv h
  obtain ⟨hlast, _⟩ := concat_last_eq _ _ _ _ hshape.symm
  exact hn (hlast ▸ List.mem_append_right n' dot_mem_mdExt)

/-- Under the invariant, files and directories are disjoint. -/
theorem file_not_dir {saved : List FPath} {fs : Fs} (hinv : Inv saved fs)
    {p : FPath} (h : fs.isFile p = true) : p ∉ fs.dirs := by
  intro hd
  obtain ⟨D, n, hshape, _, _⟩ := isFile_shape hinv h
  have hclean := hinv.dirs_clean p hd (n ++ mdExt) (by rw [hshape]; simp)
  exact hclean.2.1 (List.mem_append_right n dot_mem_mdExt)

/-- Under the invariant, every nonempty prefix of a directory is a directory. -/
theorem prefix_mem_dirs {saved : List FPath} {fs : Fs} (hinv : Inv saved fs) :
    ∀ d ∈ fs.dirs, ∀ q, q <+: d → q ∈ fs.dirs := by
  have key : ∀ k d, d.length ≤ k → d ∈ fs.dirs → ∀ q, q <+: d → q ∈ fs.dirs := by
    intro k
    induction k with
    | zero =>
      intro d hd hmem q hq
      have : d = [] := List.eq_nil_of_length_eq_zero (Nat.le_zero.mp hd)
      subst this
      rw [List.prefix_nil.mp hq]
      exact hmem
    | succ k ih =>
      intro d hd hmem q hq
      by_cases hqd : q = d
      · subst hqd; exact hmem
      · have hdne : d ≠ [] := by
          intro hnil
          subst hnil
          exact hqd (List.prefix_nil.mp hq)
        have hlen : q.length < d.length := by
          rcases Nat.lt_or_ge q.length d.length with h | h
          · exact h
          · exact absurd (hq.eq_of_length (le_antisymm hq.length_le h)) hqd
        have hdrop : q <+: d.dropLast := by
          rw [List.prefix_iff_eq_take] at hq ⊢
          rw [List.dropLast_eq_take, List.take_take]
          rw [min_eq_left (by omega)]
          exact hq
        have hmem' := hinv.dirs_closed d hmem hdne
        have hlen' : d.dropLast.length ≤ k := by
          rw [List.length_dropLast]
          omega
        exact ih d.dropLast hlen' hmem' q hdrop
  intro d hd q hq
  exact key d.length d (le_refl _) hd q hq

/-- An entry directly inside `parent` contributes its name to `siblingNames`. -/
theorem mem_siblingNames_of_file (fs : Fs) (R : FPath) (x : Str) (c : Str)
    (h : lookupF fs.files (R ++ [x]) = some c) : x ∈ siblingNames fs R := by
  have hm := lookupF_mem _ _ _ h
  rw [siblingNames, List.mem_filterMap]
  refine ⟨R ++ [x], ?_, ?_⟩
  · exact List.mem_append_left _ (List.mem_map.mpr ⟨(R ++ [x], c), hm, rfl⟩)
  · rw [if_pos (by simp), List.getLast?_concat]

theorem mem_siblingNames_of_dir (fs : Fs) (R : FPath) (x : Str)
    (h : (R ++ [x]) ∈ fs.dirs) : x ∈ siblingNames fs R := by
  rw [siblingNames, List.mem_filterMap]
  refine ⟨R ++ [x], List.mem_append_right _ h, ?_⟩
  rw [if_pos (by simp), List.getLast?_concat]

end Notto

namespace Notto

theorem prefix_concat_cases (q p : FPath) (x : Str) (h : q <+: p ++ [x]) :
    q = p ++ [x] ∨ q <+: p := by
  by_cases hq : q = p ++ [x]
  · exact Or.inl hq
  · right
    have hlen : q.length < (p ++ [x]).length := by
      rcases Nat.lt_or_ge q.length (p ++ [x]).length with hlt | hge
      · exact hlt
      · exact absurd (h.eq_of_length (le_antisymm h.length_le hge)) hq
    rw [List.length_append, List.length_singleton] at hlen
    rw [List.prefix_iff_eq_take] at h ⊢
    have h0 : q.length - p.length = 0 := by omega
    rw [List.take_append_eq_append_take, h0, List.take_zero,
      List.append_nil] at h
    exact h

theorem lookupF_update (files : List (FPath × Str)) (p : FPath) (c : Str) (q : FPath) :
    lookupF ((p, c) :: files.filter (fun e => decide (e.1 ≠ p))) q =
      if q = p then some c else lookupF files q := by
  rw [lookupF]
  by_cases h : q = p
  · subst h
    rw [if_pos rfl, if_pos rfl]
  · rw [if_neg (fun hc => h hc.symm), if_neg h, lookupF_filter1_eq _ _ _ h]

theorem lookupF_rename (files : List (FPath × Str)) (src dst : FPath) (c : Str)
    (q : FPath) :
    lookupF ((dst, c) ::
        files.filter (fun e => decide (e.1 ≠ src) && decide (e.1 ≠ dst))) q =
      if q = dst then some c else if q = src then none else lookupF files q := by
  rw [lookupF]
  by_cases hd : q = dst
  · subst hd
    rw [if_pos rfl, if_pos rfl]
  · rw [if_neg (fun hc => hd hc.symm), if_neg hd]
    by_cases hs : q = src
    · subst hs
      rw [if_pos rfl, lookupF_filter2_none _ _ _ _ (Or.inl rfl)]
    · rw [if_neg hs, lookupF_filter2_eq _ _ _ _ hs hd]

theorem mkdirAll_spec (fs : Fs) (p : FPath)
    (hnf : ∀ q ∈ prefixesOf p, fs.isFile q = false) :
    mkdirAll fs p = (.ok (), ⟨fs.files, prefixesOf p ++ fs.dirs⟩) := by
  rw [mkdirAll, if_neg]
  intro h
  rw [List.any_eq_true] at h
  obtain ⟨q, hq, hfile⟩ := h
  rw [hnf q hq] at hfile
  exact absurd hfile (by simp)

theorem mkdir_preserves_inv (saved : List FPath) (fs : Fs) (p : FPath)
    (hinv : Inv saved fs) (hp : ∀ s ∈ p, CleanSeg s) :
    Inv saved ⟨fs.files, prefixesOf p ++ fs.dirs⟩ := by
  constructor
  · exact List.mem_append_right _ hinv.root_dir
  · intro d hd s hs
    rcases List.mem_append.mp hd with hd | hd
    · have hpre := ((mem_prefixesOf_iff p d).mp hd).2
      exact hp s (hpre.subset hs)
    · exact hinv.dirs_clean d hd s hs
  · intro d hd hne
    rcases List.mem_append.mp hd with hd | hd
    · have hpre := ((mem_prefixesOf_iff p d).mp hd).2
      have hdl : d.dropLast <+: p := (List.dropLast_prefix d).trans hpre
      by_cases hnil : d.dropLast = []
      · rw [hnil]
        exact List.mem_append_right _ hinv.root_dir
      · exact List.mem_append_left _ ((mem_prefixesOf_iff p _).mpr ⟨hnil, hdl⟩)
    · exact List.mem_append_right _ (hinv.dirs_closed d hd hne)
  · intro e he
    obtain ⟨D, n, h1, h2, h3⟩ := hinv.files_shape e he
    exact ⟨D, n, h1, List.mem_append_right _ h2, h3⟩
  · exact hinv.not_both
  · intro P hP
    obtain ⟨D, n, h1, h2, h3, h4⟩ := hinv.saved_ok P hP
    exact ⟨D, n, h1, h2, h3, h4⟩

theorem renameFile_spec (fs : Fs) (src dst : FPath) (c : Str)
    (hsrc : lookupF fs.files src = some c) (hdd : dst ∉ fs.dirs)
    (hdn : dst ≠ []) (hpar : dst.dropLast ∈ fs.dirs) :
    renameFile fs src dst = (.ok (), ⟨(dst, c) ::
      fs.files.filter (fun e => decide (e.1 ≠ src) && decide (e.1 ≠ dst)),
      fs.dirs⟩) := by
  simp only [renameFile, hsrc]
  rw [if_neg (by simp [Fs.isDir, hdd]), if_neg hdn,
    if_neg (by simp [Fs.isDir, hpar])]

theorem writeFile_existing (saved : List FPath) (fs : Fs) (p : FPath)
    (text old : Str) (hinv : Inv saved fs)
    (h : lookupF fs.files p = some old) :
    writeFile fs p text = (.ok (),
      ⟨(p, text ++ old.drop text.length) ::
        fs.files.filter (fun e => decide (e.1 ≠ p)), fs.dirs⟩) ∧
    Inv saved ⟨(p, text ++ old.drop text.length) ::
        fs.files.filter (fun e => decide (e.1 ≠ p)), fs.dirs⟩ := by
  have hfile : fs.isFile p = true := by rw [Fs.isFile, h]; rfl
  obtain ⟨D, n, hshape, hD, hn⟩ := isFile_shape hinv hfile
  have hnd : p ∉ fs.dirs := file_not_dir hinv hfile
  have hne : p ≠ [] := by rw [hshape]; simp
  have hpar : p.dropLast ∈ fs.dirs := by
    rw [hshape, List.dropLast_concat]
    exact hD
  constructor
  · rw [writeFile, if_neg hne, if_neg (by simp [Fs.isDir, hnd]),
      if_neg (by simp [Fs.isDir, hpar]), h]
  · have hkeys : ∀ q, Fs.isFile ⟨(p, text ++ old.drop text.length) ::
        fs.files.filter (fun e => decide (e.1 ≠ p)), fs.dirs⟩ q = fs.isFile q := by
      intro q
      show (lookupF _ q).isSome = (lookupF fs.files q).isSome
      rw [lookupF_update]
      by_cases hq : q = p
      · subst hq
        rw [if_pos rfl, h]
        rfl
      · rw [if_neg hq]
    constructor
    · exact hinv.root_dir
    · exact hinv.dirs_clean
    · exact hinv.dirs_closed
    · intro e he
      rcases List.mem_cons.mp he with rfl | he'
      · exact ⟨D, n, hshape, hD, hn⟩
      · exact hinv.files_shape e (List.mem_filter.mp he').1
    · intro D' n'
      rw [hkeys, hkeys]
      exact hinv.not_both D' n'
    · intro P hP
      obtain ⟨D', n', h1, h2, h3, h4⟩ := hinv.saved_ok P hP
      refine ⟨D', n', h1, h2, h3, ?_⟩
      rw [hkeys, hkeys]
      exact h4

theorem writeFile_new (saved : List FPath) (fs : Fs) (D : FPath) (n : Str)
    (text : Str) (hinv : Inv saved fs)
    (h : lookupF fs.files (D ++ [n ++ mdExt]) = none)
    (hD : D ∈ fs.dirs) (hn : SemiClean n) (hnidx : n ≠ strL "index")
    (hnb : fs.isFile ((D ++ [n]) ++ [indexMd]) = false) :
    writeFile fs (D ++ [n ++ mdExt]) text = (.ok (),
      ⟨(D ++ [n ++ mdExt], text) :: fs.files, fs.dirs⟩) ∧
    Inv saved ⟨(D ++ [n ++ mdExt], text) :: fs.files, fs.dirs⟩ := by
  have hnd : (D ++ [n ++ mdExt]) ∉ fs.dirs := by
    intro hd
    have hclean := hinv.dirs_clean _ hd (n ++ mdExt) (by simp)
    exact hclean.2.1 (List.mem_append_right n dot_mem_mdExt)
  have hkeys : ∀ q, Fs.isFile ⟨(D ++ [n ++ mdExt], text) :: fs.files, fs.dirs⟩ q =
      true ↔ (q = D ++ [n ++ mdExt] ∨ fs.isFile q = true) := by
    intro q
    show (lookupF _ q).isSome = true ↔ _
    rw [lookupF]
    by_cases hq : D ++ [n ++ mdExt] = q
    · rw [if_pos hq]
      simp [hq.symm]
    · rw [if_neg hq]
      simp only [Fs.isFile]
      constructor
      · intro hh
        exact Or.inr hh
      · rintro (rfl | hh)
        · exact absurd rfl hq
        · exact hh
  constructor
  · rw [writeFile, if_neg (by simp), if_neg (by simp [Fs.isDir, hnd]),
      if_neg (by simp [Fs.isDir, List.dropLast_concat, hD]), h]
  · constructor
    · exact hinv.root_dir
    · exact hinv.dirs_clean
    · exact hinv.dirs_closed
    · intro e he
      rcases List.mem_cons.mp he with rfl | he'
      · exact ⟨D, n, rfl, hD, hn⟩
      · exact hinv.files_shape e he'
    · intro D' n'
      rintro ⟨hf, hi⟩
      rcases (hkeys _).mp hf with hf' | hf'
      · obtain ⟨hlast, hinit⟩ := concat_last_eq _ _ _ _ hf'
        have hn' : n' = n := List.append_cancel_right hlast
        subst hn'
        subst hinit
        rcases (hkeys _).mp hi with hi' | hi'
        · have := concat_last_eq _ _ _ _ hi'
          have hlen : (D' ++ [n']).length = D'.length := by
            rw [this.2]
          simp at hlen
        · rw [hnb] at hi'
          exact absurd hi' (by simp)
      · rcases (hkeys _).mp hi with hi' | hi'
        · obtain ⟨hlast, _⟩ := concat_last_eq _ _ _ _ hi'
          have : n = strL "index" := by
            have h2 : strL "index" ++ mdExt = n ++ mdExt := by
              rw [← indexMd_eq, hlast]
            exact (List.append_cancel_right h2).symm
          exact hnidx this
        · exact hinv.not_both D' n' ⟨hf', hi'⟩
    · intro P hP
      obtain ⟨D', n', h1, h2, h3, h4⟩ := hinv.saved_ok P hP
      refine ⟨D', n', h1, h2, h3, ?_⟩
      rcases h4 with h4 | h4
      · exact Or.inl ((hkeys _).mpr (Or.inr h4))
      · exact Or.inr ((hkeys _).mpr (Or.inr h4))

end Notto

namespace Notto

theorem pathExists_of_dir (fs : Fs) (p : FPath) (h : p ∈ fs.dirs) :
    fs.pathExists p = true := (pathExists_iff fs p).mpr (Or.inr h)

theorem pathExists_of_file (fs : Fs) (p : FPath) (h : fs.isFile p = true) :
    fs.pathExists p = true := (pathExists_iff fs p).mpr (Or.inl h)

theorem isFile_false_iff (fs : Fs) (p : FPath) :
    fs.isFile p = false ↔ lookupF fs.files p = none := by
  cases h : lookupF fs.files p <;> simp [Fs.isFile, h]

theorem dot_last_not_dir {saved : List FPath} {fs : Fs} (hinv : Inv saved fs)
    (R : FPath) (m : Str) (hm : '.' ∈ m) : (R ++ [m]) ∉ fs.dirs := fun hd =>
  (hinv.dirs_clean _ hd m (by simp)).2.1 hm

theorem ne_of_length_ne {α : Type} {l1 l2 : List α} (h : l1.length ≠ l2.length) :
    l1 ≠ l2 := fun he => h (by rw [he])

theorem cdaGoP_append (conv : Fs → FPath → Except WErr Unit × Fs) :
    ∀ (s1 : List Str) (fs : Fs) (acc : FPath) (s2 : List Str),
    cdaGoP conv fs acc (s1 ++ s2) =
      (match cdaGoP conv fs acc s1 with
      | (.error e, fs1) => (.error e, fs1)
      | (.ok _, fs1) => cdaGoP conv fs1 (acc ++ s1) s2) := by
  intro s1
  induction s1 with
  | nil =>
    intro fs acc s2
    simp [cdaGoP]
  | cons seg rest ih =>
    intro fs acc s2
    rw [List.cons_append, cdaGoP, cdaGoP]
    rcases h : createDirIfP conv fs (acc ++ [seg]) with ⟨r, fs1⟩
    cases r with
    | error e => rfl
    | ok u =>
      dsimp only
      rw [ih fs1 (acc ++ [seg]) s2]
      rcases h2 : cdaGoP conv fs1 (acc ++ [seg]) rest with ⟨r2, fs2⟩
      cases r2 with
      | error e => rfl
      | ok u2 =>
        dsimp only
        have : acc ++ [seg] ++ rest = acc ++ seg :: rest := by simp
        rw [this]

theorem cdaGoP_skip (conv : Fs → FPath → Except WErr Unit × Fs) (fs : Fs) :
    ∀ (segs : List Str) (acc : FPath),
    (∀ q, q <+: segs → q ≠ [] → (acc ++ q) ∈ fs.dirs) →
    (∀ q, q <+: segs → q ≠ [] → fs.isFile (acc ++ q) = false) →
    cdaGoP conv fs acc segs = (.ok (), fs) := by
  intro segs
  induction segs with
  | nil => intro acc _ _; rfl
  | cons seg rest ih =>
    intro acc hdirs hnf
    have h1 : (acc ++ [seg]) ∈ fs.dirs := hdirs [seg] ⟨rest, rfl⟩ (by simp)
    have h2 : fs.isFile (acc ++ [seg]) = false := hnf [seg] ⟨rest, rfl⟩ (by simp)
    rw [cdaGoP, createDirIfP, if_pos (pathExists_of_dir fs _ h1),
      if_neg (by rw [h2]; simp)]
    dsimp only
    refine ih (acc ++ [seg]) ?_ ?_
    · intro q hq hqne
      have heq : acc ++ [seg] ++ q = acc ++ (seg :: q) := by simp
      rw [heq]
      exact hdirs (seg :: q) ((List.prefix_cons_inj seg).mpr hq) (by simp)
    · intro q hq hqne
      have heq : acc ++ [seg] ++ q = acc ++ (seg :: q) := by simp
      rw [heq]
      exact hnf (seg :: q) ((List.prefix_cons_inj seg).mpr hq) (by simp)

end Notto


namespace Notto

theorem dot_mem_indexMd : '.' ∈ indexMd := by decide

theorem setExtMdPath_concat (D : FPath) (n : Str) (hdot : '.' ∉ n) :
    setExtMdPath (D ++ [n]) = D ++ [n ++ mdExt] := by
  rw [setExtMdPath, List.getLast?_concat]
  dsimp only
  rw [List.dropLast_concat, setExtMdSeg, fileStem_no_dot n hdot]

/-- Walking `create_dir_all` towards a fresh destination `D/n` whose prefixes
all exist as directories, with no note file in the way, just creates the
destination directory. -/
theorem cdaGoP_fresh_dest (conv : Fs → FPath → Except WErr Unit × Fs) (g : Fs)
    (D : FPath) (n : Str)
    (hdirs : ∀ q, q <+: D → q ≠ [] → q ∈ g.dirs)
    (hnof : ∀ q, q <+: (D ++ [n]) → q ≠ [] → g.isFile q = false)
    (hnod : (D ++ [n]) ∉ g.dirs)
    (hposs : g.pathExists (D ++ [n ++ mdExt]) = false)
    (hdot : '.' ∉ n) :
    cdaGoP conv g [] (D ++ [n]) =
      (.ok (), ⟨g.files, prefixesOf (D ++ [n]) ++ g.dirs⟩) := by
  rw [cdaGoP_append conv D g [] [n]]
  rw [cdaGoP_skip conv g D []
    (fun q hq hqne => by simpa using hdirs q hq hqne)
    (fun q hq hqne => by
      simpa using hnof q (hq.trans ⟨[n], rfl⟩) hqne)]
  dsimp only
  rw [List.nil_append]
  rw [cdaGoP, createDirIfP]
  rw [if_neg (fun hX => by
    rcases (pathExists_iff g _).mp hX with hf | hd
    · rw [hnof (D ++ [n]) (List.prefix_refl _) (by simp)] at hf
      exact absurd hf (by simp)
    · exact hnod hd)]
  rw [setExtMdPath_concat D n hdot]
  rw [if_neg (by rw [hposs]; simp)]
  rw [mkdirAll_spec g (D ++ [n]) (fun q hq => by
    obtain ⟨hqne, hqpre⟩ := (mem_prefixesOf_iff _ _).mp hq
    exact hnof q hqpre hqne)]
  rfl

/-- Effect of a clean promotion: `convert_note_to_parent_note` on `D/n.md` (with
`D/n` not yet a directory) succeeds, creates directory `D/n`, moves the contents
into `D/n/index.md`, and touches nothing else. -/
theorem convertNote_clean (fuel : Nat) (saved : List FPath) (fs : Fs) (D : FPath)
    (n : Str) (c : Str) (hinv : Inv saved fs)
    (hfile : lookupF fs.files (D ++ [n ++ mdExt]) = some c)
    (hnod : (D ++ [n]) ∉ fs.dirs) :
    ∃ files', convertNote (fuel + 1) fs (D ++ [n ++ mdExt]) =
        (.ok (), ⟨files', prefixesOf (D ++ [n]) ++ fs.dirs⟩) ∧
      (∀ q, lookupF files' q =
        if q = (D ++ [n]) ++ [indexMd] then some c
        else if q = D ++ [n ++ mdExt] then none
        else lookupF fs.files q) ∧
      (∀ e ∈ files', e.1 = (D ++ [n]) ++ [indexMd] ∨ e ∈ fs.files) := by
  have hisf : fs.isFile (D ++ [n ++ mdExt]) = true := by
    rw [Fs.isFile, hfile]; rfl
  obtain ⟨D', n', hshape, hD', hsemi'⟩ := isFile_shape hinv hisf
  obtain ⟨hlast, hinit⟩ := concat_last_eq _ _ _ _ hshape
  have hnn : n' = n := (List.append_cancel_right hlast).symm
  rw [hnn] at hsemi'
  rw [← hinit] at hD'
  have hdot : '.' ∉ n := hsemi'.2.1
  have hne : n ≠ [] := hsemi'.1
  have htmp_sib : ∀ x ∈ siblingNames fs D, freshSeg (n :: siblingNames fs D) ≠ x :=
    fun x hx => freshSeg_not_mem _ x (List.mem_cons_of_mem _ hx)
  have htmp_n : freshSeg (n :: siblingNames fs D) ≠ n :=
    freshSeg_not_mem _ n (List.mem_cons_self _ _)
  have htmp_src : freshSeg (n :: siblingNames fs D) ≠ n ++ mdExt :=
    htmp_sib _ (mem_siblingNames_of_file fs D _ c hfile)
  have htmp_nofile :
      lookupF fs.files (D ++ [freshSeg (n :: siblingNames fs D)]) = none := by
    cases hlk : lookupF fs.files (D ++ [freshSeg (n :: siblingNames fs D)]) with
    | none => rfl
    | some c' =>
      exact absurd rfl (htmp_sib _ (mem_siblingNames_of_file fs D _ c' hlk))
  have htmp_nodir : (D ++ [freshSeg (n :: siblingNames fs D)]) ∉ fs.dirs := fun h =>
    htmp_sib _ (mem_siblingNames_of_dir fs D _ h) rfl
  have htp_ne_src : D ++ [freshSeg (n :: siblingNames fs D)] ≠ D ++ [n ++ mdExt] :=
    fun h => htmp_src (concat_last_eq _ _ _ _ h).1
  have htp_ne_idx : D ++ [freshSeg (n :: siblingNames fs D)] ≠
      (D ++ [n]) ++ [indexMd] :=
    ne_of_length_ne (by simp)
  -- the state after the first rename
  have hlk1 : ∀ q, lookupF ((D ++ [freshSeg (n :: siblingNames fs D)], c) ::
      fs.files.filter (fun e => decide (e.1 ≠ D ++ [n ++ mdExt]) &&
        decide (e.1 ≠ D ++ [freshSeg (n :: siblingNames fs D)]))) q =
      if q = D ++ [freshSeg (n :: siblingNames fs D)] then some c
      else if q = D ++ [n ++ mdExt] then none
      else lookupF fs.files q :=
    lookupF_rename fs.files _ _ c
  refine ⟨((D ++ [n]) ++ [indexMd], c) ::
    ((D ++ [freshSeg (n :: siblingNames fs D)], c) ::
      fs.files.filter (fun e => decide (e.1 ≠ D ++ [n ++ mdExt]) &&
        decide (e.1 ≠ D ++ [freshSeg (n :: siblingNames fs D)]))).filter
      (fun e => decide (e.1 ≠ D ++ [freshSeg (n :: siblingNames fs D)]) &&
        decide (e.1 ≠ (D ++ [n]) ++ [indexMd])), ?_, ?_, ?_⟩
  · -- the computation
    rw [convertNote]
    rw [if_neg (by rw [pathExists_of_file fs _ hisf]; simp)]
    rw [if_neg (by rw [hisf]; simp)]
    rw [List.getLast?_concat]
    dsimp only
    rw [fileStem_append_md n hdot hne, List.dropLast_concat]
    rw [renameFile_spec fs _ _ c hfile htmp_nodir (by simp)
      (by rw [List.dropLast_concat]; exact hD')]
    dsimp only
    rw [cdaGoP_fresh_dest (convertNote fuel)
      ⟨(D ++ [freshSeg (n :: siblingNames fs D)], c) ::
        fs.files.filter (fun e => decide (e.1 ≠ D ++ [n ++ mdExt]) &&
          decide (e.1 ≠ D ++ [freshSeg (n :: siblingNames fs D)])), fs.dirs⟩ D n
      (fun q hq hqne => prefix_mem_dirs hinv D hD' q hq)
      (fun q hq hqne => by
        rw [isFile_false_iff]
        dsimp only
        rw [hlk1 q]
        rcases prefix_concat_cases q D n hq with rfl | hqD
        · rw [if_neg (fun h => htmp_n (concat_last_eq _ _ _ _ h).1.symm),
            if_neg (fun h => by
              have h1 := congrArg List.length (concat_last_eq _ _ _ _ h).1
              rw [List.length_append] at h1
              have h3 : mdExt.length = 3 := by decide
              omega)]
          rw [← isFile_false_iff]
          exact not_isFile_clean_last hinv hdot
        · have hql : q.length ≤ D.length := hqD.length_le
          rw [if_neg (ne_of_length_ne (by simp; omega)),
            if_neg (ne_of_length_ne (by simp; omega))]
          rw [← isFile_false_iff]
          by_cases hf : fs.isFile q = true
          · exact absurd (prefix_mem_dirs hinv D hD' q hqD) (file_not_dir hinv hf)
          · simpa using hf
      )
      hnod
      (by
        rw [pathExists_false_iff]
        constructor
        · rw [isFile_false_iff]
          dsimp only
          rw [hlk1]
          rw [if_neg (fun h => htp_ne_src h.symm), if_pos rfl]
        · exact dot_last_not_dir hinv D (n ++ mdExt)
            (List.mem_append_right n dot_mem_mdExt))
      hdot]
    dsimp only
    rw [renameFile_spec
      ⟨(D ++ [freshSeg (n :: siblingNames fs D)], c) ::
        fs.files.filter (fun e => decide (e.1 ≠ D ++ [n ++ mdExt]) &&
          decide (e.1 ≠ D ++ [freshSeg (n :: siblingNames fs D)])),
        prefixesOf (D ++ [n]) ++ fs.dirs⟩
      (D ++ [freshSeg (n :: siblingNames fs D)]) ((D ++ [n]) ++ [indexMd]) c
      (by dsimp only; rw [hlk1, if_pos rfl])
      (by
        dsimp only
        intro hmem
        rcases List.mem_append.mp hmem with hmem | hmem
        · have := ((mem_prefixesOf_iff _ _).mp hmem).2.length_le
          simp at this
        · exact dot_last_not_dir hinv (D ++ [n]) indexMd dot_mem_indexMd hmem)
      (by simp)
      (by
        dsimp only
        rw [List.dropLast_concat]
        exact List.mem_append_left _ (self_mem_prefixesOf _ (by simp)))]
  · -- the lookup characterization
    intro q
    rw [lookupF_rename]
    by_cases hqi : q = (D ++ [n]) ++ [indexMd]
    · rw [if_pos hqi, if_pos hqi]
    · rw [if_neg hqi, if_neg hqi]
      by_cases hqt : q = D ++ [freshSeg (n :: siblingNames fs D)]
      · rw [if_pos hqt, hqt, if_neg htp_ne_src, htmp_nofile]
      · rw [if_neg hqt, hlk1, if_neg hqt]
  · -- membership
    intro e he
    rcases List.mem_cons.mp he with rfl | he'
    · exact Or.inl rfl
    · have he2 := List.mem_filter.mp he'
      rcases List.mem_cons.mp he2.1 with rfl | he3
      · exfalso
        have := he2.2
        simp at this
      · exact Or.inr (List.mem_filter.mp he3).1

end Notto

namespace Notto

/-- The invariant survives a clean promotion. -/
theorem promoted_inv (saved : List FPath) (fs : Fs) (D : FPath) (n : Str) (c : Str)
    (files' : List (FPath × Str)) (hinv : Inv saved fs) (hnClean : CleanSeg n)
    (hfile : lookupF fs.files (D ++ [n ++ mdExt]) = some c)
    (hchar : ∀ q, lookupF files' q =
      if q = (D ++ [n]) ++ [indexMd] then some c
      else if q = D ++ [n ++ mdExt] then none
      else lookupF fs.files q)
    (hmem : ∀ e ∈ files', e.1 = (D ++ [n]) ++ [indexMd] ∨ e ∈ fs.files) :
    Inv saved ⟨files', prefixesOf (D ++ [n]) ++ fs.dirs⟩ := by
  have hisf : fs.isFile (D ++ [n ++ mdExt]) = true := by
    rw [Fs.isFile, hfile]; rfl
  obtain ⟨D', n', hshape, hD', hsemi'⟩ := isFile_shape hinv hisf
  obtain ⟨hlast, hinit⟩ := concat_last_eq _ _ _ _ hshape
  have hnn : n' = n := (List.append_cancel_right hlast).symm
  rw [hnn] at hsemi'
  rw [← hinit] at hD'
  have hkey : ∀ q, Fs.isFile ⟨files', prefixesOf (D ++ [n]) ++ fs.dirs⟩ q = true ↔
      (q = (D ++ [n]) ++ [indexMd] ∨
        (q ≠ D ++ [n ++ mdExt] ∧ fs.isFile q = true)) := by
    intro q
    show (lookupF files' q).isSome = true ↔ _
    rw [hchar q]
    by_cases h1 : q = (D ++ [n]) ++ [indexMd]
    · simp [h1]
    · rw [if_neg h1]
      by_cases h2 : q = D ++ [n ++ mdExt]
      · simp [h1, h2]
      · have h1' : ¬q = D ++ [n, indexMd] := by
          intro hc
          apply h1
          rw [hc]
          simp
        simp [h1', h2, Fs.isFile]
  constructor
  · exact List.mem_append_right _ hinv.root_dir
  · intro d hd s hs
    rcases List.mem_append.mp hd with hd | hd
    · have hpre := ((mem_prefixesOf_iff _ _).mp hd).2
      rcases List.mem_append.mp (hpre.subset hs) with hsD | hsn
      · exact hinv.dirs_clean D hD' s hsD
      · rw [List.mem_singleton.mp hsn]
        exact hnClean
    · exact hinv.dirs_clean d hd s hs
  · intro d hd hdne
    rcases List.mem_append.mp hd with hd | hd
    · have hpre := ((mem_prefixesOf_iff _ _).mp hd).2
      have hdl : d.dropLast <+: D ++ [n] := (List.dropLast_prefix d).trans hpre
      by_cases hnil : d.dropLast = []
      · rw [hnil]
        exact List.mem_append_right _ hinv.root_dir
      · exact List.mem_append_left _ ((mem_prefixesOf_iff _ _).mpr ⟨hnil, hdl⟩)
    · exact List.mem_append_right _ (hinv.dirs_closed d hd hdne)
  · intro e he
    rcases hmem e he with h | h
    · refine ⟨D ++ [n], strL "index", ?_, ?_, ?_⟩
      · rw [h, indexMd_eq]
      · exact List.mem_append_left _ (self_mem_prefixesOf _ (by simp))
      · exact ⟨by decide, by decide, by decide⟩
    · obtain ⟨D0, n0, h1, h2, h3⟩ := hinv.files_shape e h
      exact ⟨D0, n0, h1, List.mem_append_right _ h2, h3⟩
  · intro D0 n0
    rintro ⟨hf, hi⟩
    rcases (hkey _).mp hf with hf' | ⟨hfne, hf'⟩
    · obtain ⟨hfl, hfi⟩ := concat_last_eq _ _ _ _ hf'
      have hn0 : n0 = strL "index" := by
        rw [indexMd_eq] at hfl
        exact List.append_cancel_right hfl
      rcases (hkey _).mp hi with hi' | ⟨hine, hi'⟩
      · obtain ⟨hil, hii⟩ := concat_last_eq _ _ _ _ hi'
        obtain ⟨hil2, hii2⟩ := concat_last_eq _ _ _ _ hii
        exact hnClean.2.2.2 (hn0 ▸ hil2.symm)
      · obtain ⟨Dz, nz, hz, hzD, _⟩ := isFile_shape hinv hi'
        have hpar : (D0 ++ [n0]) ∈ fs.dirs := by
          have hdz := congrArg List.dropLast hz
          rw [List.dropLast_concat, List.dropLast_concat] at hdz
          rw [hdz]
          exact hzD
        have hcl := hinv.dirs_clean _ hpar n0 (by simp)
        exact hcl.2.2.2 hn0
    · rcases (hkey _).mp hi with hi' | ⟨hine, hi'⟩
      · obtain ⟨hil, hii⟩ := concat_last_eq _ _ _ _ hi'
        obtain ⟨hil2, hii2⟩ := concat_last_eq _ _ _ _ hii
        apply hfne
        rw [hii2, hil2]
      · exact hinv.not_both D0 n0 ⟨hf', hi'⟩
  · intro P hP
    obtain ⟨D0, n0, h1, h2, h3, h4⟩ := hinv.saved_ok P hP
    refine ⟨D0, n0, h1, h2, h3, ?_⟩
    rcases h4 with h4 | h4
    · by_cases hsrc : D0 ++ [n0 ++ mdExt] = D ++ [n ++ mdExt]
      · obtain ⟨hl, hi⟩ := concat_last_eq _ _ _ _ hsrc
        have hn0 : n0 = n := List.append_cancel_right hl
        right
        rw [h1, hi, hn0]
        exact (hkey _).mpr (Or.inl rfl)
      · left
        exact (hkey _).mpr (Or.inr ⟨hsrc, h4⟩)
    · right
      refine (hkey _).mpr (Or.inr ⟨?_, h4⟩)
      intro heq
      obtain ⟨hl, _⟩ := concat_last_eq _ _ _ _ heq
      have hidx : n = strL "index" := by
        rw [indexMd_eq] at hl
        exact (List.append_cancel_right hl).symm
      exact hnClean.2.2.2 hidx

end Notto

namespace Notto

/-- Promotion-aware creation of one clean prefix: always succeeds, preserves the
invariant, makes the prefix a directory, and keeps every existing directory. -/
theorem createDirIfP_clean (fuel : Nat) (saved : List FPath) (fs : Fs) (p : FPath)
    (hinv : Inv saved fs) (hp : ∀ s ∈ p, CleanSeg s) (hne : p ≠ [])
    (hparent : p.dropLast ∈ fs.dirs) :
    ∃ fs', createDirIfP (convertNote (fuel + 1)) fs p = (.ok (), fs') ∧
      Inv saved fs' ∧ p ∈ fs'.dirs ∧ (∀ d ∈ fs.dirs, d ∈ fs'.dirs) := by
  obtain ⟨D, m, rfl⟩ : ∃ D m, p = D ++ [m] :=
    ⟨p.dropLast, p.getLast hne, (List.dropLast_append_getLast hne).symm⟩
  rw [List.dropLast_concat] at hparent
  have hm : CleanSeg m := hp m (by simp)
  have hmdot : '.' ∉ m := hm.2.1
  cases hex : fs.pathExists (D ++ [m]) with
  | true =>
    have hdir : (D ++ [m]) ∈ fs.dirs := by
      rcases (pathExists_iff fs _).mp hex with hf | hd
      · rw [not_isFile_clean_last hinv hmdot] at hf
        exact absurd hf (by simp)
      · exact hd
    refine ⟨fs, ?_, hinv, hdir, fun d hd => hd⟩
    rw [createDirIfP, if_pos hex,
      if_neg (by rw [not_isFile_clean_last hinv hmdot]; simp)]
  | false =>
    have hnod : (D ++ [m]) ∉ fs.dirs := ((pathExists_false_iff fs _).mp hex).2
    cases hpf : fs.pathExists (D ++ [m ++ mdExt]) with
    | true =>
      have hisf : fs.isFile (D ++ [m ++ mdExt]) = true := by
        rcases (pathExists_iff fs _).mp hpf with hf | hd
        · exact hf
        · exact absurd hd (dot_last_not_dir hinv D (m ++ mdExt)
            (List.mem_append_right m dot_mem_mdExt))
      obtain ⟨c, hc⟩ := (lookupF_isSome_iff fs.files _).mp hisf
      obtain ⟨files', heq, hchar, hmem⟩ :=
        convertNote_clean fuel saved fs D m c hinv hc hnod
      refine ⟨⟨files', prefixesOf (D ++ [m]) ++ fs.dirs⟩, ?_, ?_, ?_, ?_⟩
      · rw [createDirIfP, if_neg (by rw [hex]; simp),
          setExtMdPath_concat D m hmdot, if_pos hpf, heq]
      · exact promoted_inv saved fs D m c files' hinv hm hc hchar hmem
      · exact List.mem_append_left _ (self_mem_prefixesOf _ (by simp))
      · exact fun d hd => List.mem_append_right _ hd
    | false =>
      refine ⟨⟨fs.files, prefixesOf (D ++ [m]) ++ fs.dirs⟩, ?_, ?_, ?_, ?_⟩
      · rw [createDirIfP, if_neg (by rw [hex]; simp),
          setExtMdPath_concat D m hmdot, if_neg (by rw [hpf]; simp)]
        rw [mkdirAll_spec fs (D ++ [m]) (fun q hq => by
          obtain ⟨hqne, hqpre⟩ := (mem_prefixesOf_iff _ _).mp hq
          rcases prefix_concat_cases q D m hqpre with rfl | hqD
          · exact ((pathExists_false_iff fs _).mp hex).1
          · have hqd : q ∈ fs.dirs := prefix_mem_dirs hinv D hparent q hqD
            by_cases hf : fs.isFile q = true
            · exact absurd hqd (file_not_dir hinv hf)
            · simpa using hf)]
      · exact mkdir_preserves_inv saved fs (D ++ [m]) hinv hp
      · exact List.mem_append_left _ (self_mem_prefixesOf _ (by simp))
      · exact fun d hd => List.mem_append_right _ hd

/-- The `create_dir_all` walk over clean segments: succeeds, preserves the
invariant, creates the full path as a directory, and keeps every existing
directory. -/
theorem cdaGoP_clean (fuel : Nat) (saved : List FPath) :
    ∀ (segs : List Str) (fs : Fs) (acc : FPath), Inv saved fs →
    (∀ s ∈ acc, CleanSeg s) → (∀ s ∈ segs, CleanSeg s) → acc ∈ fs.dirs →
    ∃ fs', cdaGoP (convertNote (fuel + 1)) fs acc segs = (.ok (), fs') ∧
      Inv saved fs' ∧ (acc ++ segs) ∈ fs'.dirs ∧ (∀ d ∈ fs.dirs, d ∈ fs'.dirs) := by
  intro segs
  induction segs with
  | nil =>
    intro fs acc hinv hacc hsegs haccd
    exact ⟨fs, rfl, hinv, by simpa using haccd, fun d hd => hd⟩
  | cons seg rest ih =>
    intro fs acc hinv hacc hsegs haccd
    obtain ⟨fs1, h1, hinv1, hd1, hmono1⟩ :=
      createDirIfP_clean fuel saved fs (acc ++ [seg]) hinv
        (fun s hs => by
          rcases List.mem_append.mp hs with hs | hs
          · exact hacc s hs
          · rw [List.mem_singleton.mp hs]
            exact hsegs seg (by simp))
        (by simp)
        (by rw [List.dropLast_concat]; exact haccd)
    obtain ⟨fs2, h2, hinv2, hd2, hmono2⟩ := ih fs1 (acc ++ [seg]) hinv1
      (fun s hs => by
        rcases List.mem_append.mp hs with hs | hs
        · exact hacc s hs
        · rw [List.mem_singleton.mp hs]
          exact hsegs seg (by simp))
      (fun s hs => hsegs s (List.mem_cons_of_mem _ hs))
      hd1
    refine ⟨fs2, ?_, hinv2, ?_, fun d hd => hmono2 d (hmono1 d hd)⟩
    · rw [cdaGoP, h1]
      exact h2
    · have : acc ++ [seg] ++ rest = acc ++ seg :: rest := by simp
      rw [← this]
      exact hd2

end Notto


namespace Notto

/-- Under the invariant, probing a dotless name reads the state directly:
`File` iff the note file exists, else `Directory` iff the directory's root note
exists, else nothing. -/
theorem probe_clean (saved : List FPath) (fs : Fs) (D : FPath) (n : Str)
    (hinv : Inv saved fs) (hn : SemiClean n) :
    noteFileExists fs D n =
      if fs.isFile (D ++ [n ++ mdExt]) = true then
        some (NoteFileType.File (n ++ mdExt))
      else if (D ++ [n]) ∈ fs.dirs ∧ fs.isFile ((D ++ [n]) ++ [indexMd]) = true
      then some (NoteFileType.Directory n)
      else none := by
  have hnends := not_endsWithMd n hn.2.1
  simp only [noteFileExists, hnends, Bool.false_eq_true, if_false, Bool.and_self]
  by_cases hf : fs.isFile (D ++ [n ++ mdExt]) = true
  · rw [if_pos (by rw [pathExists_of_file fs _ hf, hf]; rfl), if_pos hf]
  · have hf' : fs.isFile (D ++ [n ++ mdExt]) = false := by simpa using hf
    rw [if_neg (by rw [hf']; simp), if_neg hf]
    by_cases hd : (D ++ [n]) ∈ fs.dirs
    · rw [if_pos (pathExists_of_dir fs _ hd)]
      by_cases hidx : fs.isFile ((D ++ [n]) ++ [indexMd]) = true
      · rw [if_pos (pathExists_of_file fs _ hidx), if_pos ⟨hd, hidx⟩]
      · have hidx' : fs.isFile ((D ++ [n]) ++ [indexMd]) = false := by
          simpa using hidx
        have hipz : fs.pathExists ((D ++ [n]) ++ [indexMd]) = false := by
          rw [pathExists_false_iff]
          exact ⟨hidx', dot_last_not_dir hinv (D ++ [n]) indexMd dot_mem_indexMd⟩
        rw [if_neg (by rw [hipz]; simp),
          if_neg (fun hc => by rw [hidx'] at hc; exact Bool.false_ne_true hc.2)]
    · have hdpf : fs.pathExists (D ++ [n]) = false := by
        rw [pathExists_false_iff]
        exact ⟨not_isFile_clean_last hinv hn.2.1, hd⟩
      rw [if_neg (by rw [hdpf]; simp), if_neg (fun hc => hd hc.1)]

end Notto

namespace Notto

/-- Recording one more successfully saved logical path preserves the invariant,
given an on-disk witness for the new path. -/
theorem inv_snoc_saved (saved : List FPath) (fs : Fs) (D : FPath) (n : Str)
    (hinv : Inv saved fs) (hn : CleanSeg n) (hD : ∀ s ∈ D, CleanSeg s)
    (hw : fs.isFile (D ++ [n ++ mdExt]) = true ∨
      fs.isFile ((D ++ [n]) ++ [indexMd]) = true) :
    Inv (saved ++ [D ++ [n]]) fs := by
  refine ⟨hinv.root_dir, hinv.dirs_clean, hinv.dirs_closed, hinv.files_shape,
    hinv.not_both, ?_⟩
  intro P hP
  rcases List.mem_append.mp hP with hP | hP
  · exact hinv.saved_ok P hP
  · rw [List.mem_singleton] at hP
    subst hP
    exact ⟨D, n, rfl, hn, hD, hw⟩

/-- One clean `save_note_at` call from an invariant state keeps the invariant,
recording the logical path exactly when the call succeeds. -/
theorem saveNoteAt_clean (fuel : Nat) (saved : List FPath) (fs : Fs) (text : Str)
    (path : FPath) (name : Str) (ow : Bool) (hinv : Inv saved fs)
    (hpath : ∀ s ∈ path, CleanSeg s) (hname : CleanSeg name) :
    ∃ r fs', saveNoteAt (fuel + 1) fs text path name ow = (r, fs') ∧
      Inv (match r with
            | .ok _ => saved ++ [path ++ [name]]
            | .error _ => saved) fs' := by
  have hsemi : SemiClean name := ⟨hname.1, hname.2.1, hname.2.2.1⟩
  have hcommon : ∀ g : Fs, Inv saved g → path ∈ g.dirs →
      ∃ r fs', saveNoteAt (fuel + 1) g text path name ow = (r, fs') ∧
        Inv (match r with
              | .ok _ => saved ++ [path ++ [name]]
              | .error _ => saved) fs' := by
    intro g hinvg hgd
    unfold saveNoteAt
    rw [pathExists_of_dir g path hgd, not_endsWithMd name hname.2.1]
    simp only [Bool.not_true, Bool.false_eq_true, if_false]
    rw [probe_clean saved g path name hinvg hsemi]
    by_cases hf : g.isFile (path ++ [name ++ mdExt]) = true
    · rw [if_pos hf]
      dsimp only
      cases ow with
      | false =>
        simp only [Bool.not_false]
        rw [if_pos trivial]
        exact ⟨_, _, rfl, hinvg⟩
      | true =>
        simp only [Bool.not_true]
        rw [if_neg (by simp)]
        have hf2 := hf
        rw [Fs.isFile, lookupF_isSome_iff] at hf2
        obtain ⟨old, hold⟩ := hf2
        have hwx := writeFile_existing saved g (path ++ [name ++ mdExt])
          text old hinvg hold
        rw [hwx.1]
        dsimp only
        refine ⟨_, _, rfl, ?_⟩
        exact inv_snoc_saved saved _ path name hwx.2 hname hpath
          (Or.inl (by simp [Fs.isFile, lookupF]))
    · rw [if_neg hf]
      by_cases hcond : (path ++ [name]) ∈ g.dirs ∧
          g.isFile ((path ++ [name]) ++ [indexMd]) = true
      · rw [if_pos hcond]
        dsimp only
        cases ow with
        | false =>
          simp only [Bool.not_false]
          rw [if_pos trivial]
          exact ⟨_, _, rfl, hinvg⟩
        | true =>
          simp only [Bool.not_true]
          rw [if_neg (by simp)]
          have hc2 := hcond.2
          rw [Fs.isFile, lookupF_isSome_iff] at hc2
          obtain ⟨old, hold⟩ := hc2
          rw [(by simp : path ++ [name, indexMd] = (path ++ [name]) ++ [indexMd])]
          have hwx := writeFile_existing saved g ((path ++ [name]) ++ [indexMd])
            text old hinvg hold
          rw [hwx.1]
          dsimp only
          refine ⟨_, _, rfl, ?_⟩
          exact inv_snoc_saved saved _ path name hwx.2 hname hpath
            (Or.inr (by simp [Fs.isFile, lookupF]))
      · rw [if_neg hcond]
        dsimp only
        have hf' : g.isFile (path ++ [name ++ mdExt]) = false := by simpa using hf
        have hnone : lookupF g.files (path ++ [name ++ mdExt]) = none :=
          (isFile_false_iff g _).mp hf'
        have hnb : g.isFile ((path ++ [name]) ++ [indexMd]) = false := by
          by_cases hip : g.isFile ((path ++ [name]) ++ [indexMd]) = true
          · exfalso
            obtain ⟨Dz, nz, hz, hzD, _⟩ := isFile_shape hinvg hip
            have hdz := congrArg List.dropLast hz
            rw [List.dropLast_concat, List.dropLast_concat] at hdz
            rw [← hdz] at hzD
            exact hcond ⟨hzD, hip⟩
          · simpa using hip
        have hwx := writeFile_new saved g path name text hinvg hnone hgd hsemi
          hname.2.2.2 hnb
        rw [hwx.1]
        dsimp only
        refine ⟨_, _, rfl, ?_⟩
        exact inv_snoc_saved saved _ path name hwx.2 hname hpath
          (Or.inl (by simp [Fs.isFile, lookupF]))
  by_cases hex : fs.pathExists path = true
  · have hpd : path ∈ fs.dirs := by
      rcases List.eq_nil_or_concat path with rfl | ⟨D0, s, hps⟩
      · exact hinv.root_dir
      · rw [List.concat_eq_append] at hps
        subst hps
        rcases (pathExists_iff fs _).mp hex with hfile | hdir
        · rw [not_isFile_clean_last hinv (hpath s (by simp)).2.1] at hfile
          exact absurd hfile (by simp)
        · exact hdir
    exact hcommon fs hinv hpd
  · have hex' : fs.pathExists path = false := by simpa using hex
    obtain ⟨fs1, hw, hinv1, hd1, _⟩ :=
      cdaGoP_clean fuel saved path fs [] hinv (by simp) hpath hinv.root_dir
    have hd1' : path ∈ fs1.dirs := by simpa using hd1
    have heq : saveNoteAt (fuel + 1) fs text path name ow =
        saveNoteAt (fuel + 1) fs1 text path name ow := by
      unfold saveNoteAt
      rw [hex', pathExists_of_dir fs1 path hd1', createDirAllW, hw]
      simp
    rw [heq]
    exact hcommon fs1 hinv1 hd1'

end Notto

namespace Notto

/-- Applying one clean save to an invariant state yields an invariant state. -/
theorem applyOp_clean (op : SaveOp) (st : Fs × List FPath)
    (hop : CleanOp op) (hinv : Inv st.2 st.1) :
    Inv (applyOp st op).2 (applyOp st op).1 := by
  obtain ⟨hpar, hname, hfuel⟩ := hop
  obtain ⟨k, hk⟩ : ∃ k, op.fuel = k + 1 := ⟨op.fuel - 1, by omega⟩
  obtain ⟨r, fs', hrun, hinvr⟩ :=
    saveNoteAt_clean k st.2 st.1 op.text op.parent op.name op.overwrite
      hinv hpar hname
  have hstrip : stripName op.name = op.name := by
    rw [stripName, not_endsWithMd op.name hname.2.1]
    simp
  rw [applyOp, hk, hrun]
  cases r with
  | ok p =>
    dsimp only
    rw [hstrip]
    exact hinvr
  | error e => exact hinvr

/-- The empty base directory satisfies the invariant with no saved paths. -/
theorem inv_fs0 : Inv [] fs0 := by
  refine ⟨by simp [fs0], ?_, ?_, ?_, ?_, ?_⟩
  · intro d hd s hs
    simp [fs0] at hd
    subst hd
    simp at hs
  · intro d hd hne
    simp [fs0] at hd
    exact absurd hd hne
  · intro e he
    simp [fs0] at he
  · intro D n hc
    have h1 := hc.1
    simp [fs0, Fs.isFile, lookupF] at h1
  · intro P hP
    simp at hP

/-- Every clean save history maintains the invariant. -/
theorem runOps_inv (ops : List SaveOp) (hops : ∀ op ∈ ops, CleanOp op) :
    Inv (runOps ops).2 (runOps ops).1 := by
  rw [runOps]
  have key : ∀ (l : List SaveOp) (st : Fs × List FPath), (∀ op ∈ l, CleanOp op) →
      Inv st.2 st.1 → Inv (l.foldl applyOp st).2 (l.foldl applyOp st).1 := by
    intro l
    induction l with
    | nil =>
      intro st _ h
      simpa using h
    | cons op rest ih =>
      intro st hl h
      rw [List.foldl_cons]
      exact ih (applyOp st op) (fun o ho => hl o (List.mem_cons_of_mem _ ho))
        (applyOp_clean op st (hl op (List.mem_cons_self _ _)) h)
  exact key ops (fs0, []) hops inv_fs0

end Notto

namespace Notto

/-- C1 (amended): for every save history whose parent segments and note names
are simple names (nonempty, no `.` or `/`, not the reserved stem `index`, given
without the `.md` suffix, with fuel for the promotions a clean history
triggers), every logical path `P = D/n` at which a note was successfully saved
probes as some note (`note_file_exists` is never `None` there), and the tree
never holds both the file `D/n.md` and the directory root note
`D/n/index.md` — the saved note's identity is exactly one of File or
Directory. The unamended claim, without the `index` restriction on segment
names, is refuted by `c1_counterexample_probe_none_after_saves`. -/
theorem c1_amended_one_identity_for_clean_saves (ops : List SaveOp)
    (hops : ∀ op ∈ ops, CleanOp op) :
    ∀ P ∈ (runOps ops).2, ∃ D n, P = D ++ [n] ∧
      (noteFileExists (runOps ops).1 D n).isSome = true ∧
      ¬((runOps ops).1.isFile (D ++ [n ++ mdExt]) = true ∧
        (runOps ops).1.isFile ((D ++ [n]) ++ [indexMd]) = true) := by
  intro P hP
  have hinv := runOps_inv ops hops
  obtain ⟨D, n, hPeq, hn, hD, hw⟩ := hinv.saved_ok P hP
  subst hPeq
  refine ⟨D, n, rfl, ?_, hinv.not_both D n⟩
  rw [probe_clean _ _ D n hinv ⟨hn.1, hn.2.1, hn.2.2.1⟩]
  by_cases hf : (runOps ops).1.isFile (D ++ [n ++ mdExt]) = true
  · rw [if_pos hf]
    rfl
  · rcases hw with hw | hw
    · exact absurd hw hf
    · have hdirm : (D ++ [n]) ∈ (runOps ops).1.dirs := by
        obtain ⟨Dz, nz, hz, hzD, _⟩ := isFile_shape hinv hw
        have hdz := congrArg List.dropLast hz
        rw [List.dropLast_concat, List.dropLast_concat] at hdz
        rw [hdz]
        exact hzD
      rw [if_neg hf, if_pos ⟨hdirm, hw⟩]
      rfl

/-- A clean two-save history for the C1 witness: save `alpha` at the root, then
save `beta` under `alpha` (which promotes `alpha.md` into `alpha/index.md`). -/
def opsC1W : List SaveOp :=
  [⟨strL "X", [], strL "alpha", false, 2⟩,
   ⟨strL "Y", [strL "alpha"], strL "beta", false, 2⟩]

theorem c1_amended_witness :
    ∃ D n, [strL "alpha"] = D ++ [n] ∧
      (noteFileExists (runOps opsC1W).1 D n).isSome = true ∧
      ¬((runOps opsC1W).1.isFile (D ++ [n ++ mdExt]) = true ∧
        (runOps opsC1W).1.isFile ((D ++ [n]) ++ [indexMd]) = true) :=
  c1_amended_one_identity_for_clean_saves opsC1W
    (by
      have ha : CleanSeg (strL "alpha") :=
        ⟨by decide, by decide, by decide, by decide⟩
      have hb : CleanSeg (strL "beta") :=
        ⟨by decide, by decide, by decide, by decide⟩
      intro op hop
      rcases List.mem_cons.mp hop with rfl | hop
      · exact ⟨by intro s hs; simp at hs, ha, by decide⟩
      rcases List.mem_cons.mp hop with rfl | hop
      · refine ⟨?_, hb, by decide⟩
        intro s hs
        rw [List.mem_singleton] at hs
        subst hs
        exact ha
      · simp at hop)
    [strL "alpha"] (by decide)

end Notto
